import Mathlib

/-!
Verification of the zpack constraint planner against its specification.

This file shallowly embeds the data model and operations of the planner:
option values and versions (`src/spec/spec_option.rs`, `src/package/version.rs`),
the constraint AST (`src/package/constraint/`), the version registry
(`src/package/registry.rs`), outline-graph construction, default propagation
and solver building (`src/package/outline.rs`).  Rust `HashMap`s are modelled
as association lists with overwrite-on-insert, `HashSet` collection as
deduplicated lists, machine integers as `Nat`/`Int`, and `f64` by its bit
pattern together with the IEEE equality the code's `PartialEq` uses.
-/

set_option maxRecDepth 4000

namespace Zpack

/-- Model of a Rust `f64` by its 64-bit pattern (`bits < 2^64` is not needed
for any theorem, so it is not carried). -/
structure F64 where
  bits : Nat
deriving DecidableEq

/-- NaN test: exponent field all ones and non-zero fraction. -/
def F64.isNan (x : F64) : Bool :=
  decide ((x.bits >>> 52) % 2048 = 2047) && decide (¬ x.bits % (2 ^ 52) = 0)

/-- Zero test: all bits other than the sign bit are zero. -/
def F64.isZero (x : F64) : Bool :=
  decide (x.bits % (2 ^ 63) = 0)

/-- IEEE-754 equality on doubles, as Rust's `==` on `f64` behaves: NaN equals
nothing, `+0 == -0`, otherwise bit-pattern equality. -/
def f64Eq (a b : F64) : Bool :=
  !a.isNan && !b.isNan && (a == b || (a.isZero && b.isZero))

/-- `SemVer` from `src/package/version.rs` (u32 fields modelled as `Nat`). -/
structure SemVer where
  major : Nat
  minor : Nat
  patch : Nat
  rc : Option (List String)
  meta : Option (List String)
deriving DecidableEq

/-- `DotSeparated` from `src/package/version.rs`. -/
structure DotSeparated where
  parts : List String
deriving DecidableEq

/-- `Other` from `src/package/version.rs`. -/
structure OtherVersion where
  value : String
deriving DecidableEq

/-- `Version` from `src/package/version.rs`. -/
inductive Version where
  | semVer (v : SemVer)
  | dotSeparated (v : DotSeparated)
  | other (v : OtherVersion)
deriving DecidableEq

/-- Sequence two comparisons, as Rust tuple ordering does. -/
def ordThen (a b : Ordering) : Ordering :=
  match a with
  | .eq => b
  | o => o

/-- Lexicographic list comparison, as Rust's `Ord for Vec<T>`: compare
pairwise, a strict prefix is less. -/
def listCompareWith (cmp : α → α → Ordering) : List α → List α → Ordering
  | [], [] => .eq
  | [], _ :: _ => .lt
  | _ :: _, [] => .gt
  | a :: as, b :: bs =>
    match cmp a b with
    | .eq => listCompareWith cmp as bs
    | o => o

/-- Character comparison by code point (agrees with Rust's byte order on
UTF-8, which preserves code-point order). -/
def charCompare (a b : Char) : Ordering := compare a.toNat b.toNat

/-- Rust `Ord for String`: lexicographic over the characters. -/
def strCompare (a b : String) : Ordering :=
  listCompareWith charCompare a.data b.data

/-- The `rc` comparison inside `SemVer::partial_cmp`
(`src/package/version.rs:128-133`): no pre-release is greater than any
pre-release; two pre-release lists compare lexicographically. -/
def rcCompare : Option (List String) → Option (List String) → Option Ordering
  | none, none => some .eq
  | none, some _ => some .gt
  | some _, none => some .lt
  | some s1, some s2 => some (listCompareWith strCompare s1 s2)

/-- `SemVer::partial_cmp` (`src/package/version.rs:111-136`). -/
def SemVer.partialCmp (a b : SemVer) : Option Ordering :=
  let versionCmp :=
    ordThen (compare a.major b.major)
      (ordThen (compare a.minor b.minor) (compare a.patch b.patch))
  if versionCmp = .eq then rcCompare a.rc b.rc else some versionCmp

/-- `DotSeparated::partial_cmp` (`src/package/version.rs:184-189`):
`self.parts.partial_cmp(&other.parts)`, i.e. lexicographic over the part
strings. -/
def DotSeparated.partialCmp (a b : DotSeparated) : Option Ordering :=
  some (listCompareWith strCompare a.parts b.parts)

/-- `SpecOptionType` from `src/spec/spec_option.rs`. -/
inductive SpecOptionType where
  | bool
  | int
  | float
  | str
  | version
deriving DecidableEq

/-- `SpecOptionValue` from `src/spec/spec_option.rs`. -/
inductive SpecOptionValue where
  | bool (b : Bool)
  | int (i : Int)
  | float (f : F64)
  | str (s : String)
  | version (v : Version)
deriving DecidableEq

/-- `SpecOptionValue::to_type`. -/
def SpecOptionValue.toType : SpecOptionValue → SpecOptionType
  | .bool _ => .bool
  | .int _ => .int
  | .float _ => .float
  | .str _ => .str
  | .version _ => .version

/-- Rust `PartialEq for SpecOptionValue` (derived): tags and payloads equal,
with `f64` payloads compared by IEEE equality. -/
def svEq : SpecOptionValue → SpecOptionValue → Bool
  | .bool a, .bool b => a == b
  | .int a, .int b => a == b
  | .float a, .float b => f64Eq a b
  | .str a, .str b => a == b
  | .version a, .version b => a == b
  | _, _ => false

/-- `CmpType` from `src/package/constraint/cmp.rs`. -/
inductive CmpType where
  | less
  | lessOrEqual
  | notEqual
  | equal
  | greaterOrEqual
  | greater
deriving DecidableEq

/-- The constraint AST, `Constraint` from `src/package/constraint/mod.rs`
with each variant's payload inlined from its defining file. -/
inductive Constraint where
  | cmp (lhs rhs : Constraint) (op : CmpType)
  | depends (onPkg : String)
  | ifThen (cond thenC : Constraint)
  | maximize (item : Constraint)
  | minimize (item : Constraint)
  | numOf (of : List Constraint)
  | specOption (packageName optionName : String)
  | value (v : SpecOptionValue)

mutual

/-- `extract_dependencies` as implemented variant by variant
(`cmp.rs:152-154` returns `Default::default()`, i.e. the empty set;
`depends.rs:60-62` returns the singleton; `if_then.rs:101-106`,
`num_of.rs`, `maximize.rs`, `minimize.rs` recurse; `spec_option.rs` and
`value.rs` return the empty set).  The `HashSet<String>` results are
modelled as deduplicated lists; only membership is meaningful. -/
def Constraint.extractDependencies : Constraint → List String
  | .cmp _ _ _ => []
  | .depends p => [p]
  | .ifThen c t => (c.extractDependencies ++ t.extractDependencies).dedup
  | .maximize i => i.extractDependencies
  | .minimize i => i.extractDependencies
  | .numOf cs => (extractDependenciesList cs).dedup
  | .specOption _ _ => []
  | .value _ => []

/-- The `flat_map` over a `NumOf` node's children. -/
def extractDependenciesList : List Constraint → List String
  | [] => []
  | c :: rest => c.extractDependencies ++ extractDependenciesList rest

end

mutual

/-- Dependency extraction as claim C1 words it: identical to
`Constraint.extractDependencies` except that `Cmp` is said to return the
union of its children's results.  Used only to exhibit the divergence. -/
def claimedExtractDependencies : Constraint → List String
  | .cmp l r _ => (claimedExtractDependencies l ++ claimedExtractDependencies r).dedup
  | .depends p => [p]
  | .ifThen c t => (claimedExtractDependencies c ++ claimedExtractDependencies t).dedup
  | .maximize i => claimedExtractDependencies i
  | .minimize i => claimedExtractDependencies i
  | .numOf cs => (claimedExtractDependenciesList cs).dedup
  | .specOption _ _ => []
  | .value _ => []

/-- The children fold of `claimedExtractDependencies`. -/
def claimedExtractDependenciesList : List Constraint → List String
  | [] => []
  | c :: rest => claimedExtractDependencies c ++ claimedExtractDependenciesList rest

end

/-- `p` names a `Depends` atom in the subtree that `extract_dependencies`
actually visits: every combinator recurses except `Cmp`, which contributes
nothing. -/
inductive DependsIn (p : String) : Constraint → Prop where
  | depends : DependsIn p (.depends p)
  | ifThenCond {c t : Constraint} : DependsIn p c → DependsIn p (.ifThen c t)
  | ifThenThen {c t : Constraint} : DependsIn p t → DependsIn p (.ifThen c t)
  | maximize {i : Constraint} : DependsIn p i → DependsIn p (.maximize i)
  | minimize {i : Constraint} : DependsIn p i → DependsIn p (.minimize i)
  | numOf {cs : List Constraint} {c : Constraint} :
      c ∈ cs → DependsIn p c → DependsIn p (.numOf cs)

theorem mem_extractDependenciesList {p : String} {cs : List Constraint} :
    p ∈ extractDependenciesList cs ↔
      ∃ c, c ∈ cs ∧ p ∈ c.extractDependencies := by
  induction cs with
  | nil => simp [extractDependenciesList]
  | cons c rest ih =>
    simp only [extractDependenciesList, List.mem_append, ih, List.mem_cons]
    constructor
    · rintro (h | ⟨d, hd, hm⟩)
      · exact ⟨c, Or.inl rfl, h⟩
      · exact ⟨d, Or.inr hd, hm⟩
    · rintro ⟨d, hd | hd, hm⟩
      · subst hd; exact Or.inl hm
      · exact Or.inr ⟨d, hd, hm⟩

theorem mem_extractDependencies_aux (n : Nat) :
    ∀ (c : Constraint), sizeOf c ≤ n →
      ∀ p, (p ∈ c.extractDependencies ↔ DependsIn p c) := by
  induction n with
  | zero =>
    intro c h
    exact absurd h (by cases c <;> simp)
  | succ n ih =>
    intro c h p
    cases c with
    | cmp l r op =>
      simp only [Constraint.extractDependencies]
      constructor
      · intro hmem; simp at hmem
      · intro hd; cases hd
    | depends q =>
      simp only [Constraint.extractDependencies, List.mem_singleton]
      constructor
      · rintro rfl; exact .depends
      · intro hd; cases hd; rfl
    | ifThen c t =>
      have hs : sizeOf (Constraint.ifThen c t) = 1 + sizeOf c + sizeOf t := by
        simp
      have hc : sizeOf c ≤ n := by omega
      have ht : sizeOf t ≤ n := by omega
      simp only [Constraint.extractDependencies, List.mem_dedup,
        List.mem_append, ih c hc, ih t ht]
      constructor
      · rintro (hd | hd)
        · exact .ifThenCond hd
        · exact .ifThenThen hd
      · intro hd
        cases hd with
        | ifThenCond hd => exact Or.inl hd
        | ifThenThen hd => exact Or.inr hd
    | maximize i =>
      have hs : sizeOf (Constraint.maximize i) = 1 + sizeOf i := by simp
      have hi : sizeOf i ≤ n := by omega
      simp only [Constraint.extractDependencies, ih i hi]
      constructor
      · exact .maximize
      · intro hd; cases hd with | maximize hd => exact hd
    | minimize i =>
      have hs : sizeOf (Constraint.minimize i) = 1 + sizeOf i := by simp
      have hi : sizeOf i ≤ n := by omega
      simp only [Constraint.extractDependencies, ih i hi]
      constructor
      · exact .minimize
      · intro hd; cases hd with | minimize hd => exact hd
    | numOf cs =>
      have hs : sizeOf (Constraint.numOf cs) = 1 + sizeOf cs := by simp
      simp only [Constraint.extractDependencies, List.mem_dedup,
        mem_extractDependenciesList]
      constructor
      · rintro ⟨c, hc, hmem⟩
        have hcn : sizeOf c ≤ n := by
          have := List.sizeOf_lt_of_mem hc
          omega
        exact .numOf hc ((ih c hcn p).1 hmem)
      · intro hd
        cases hd with
        | numOf hc hd =>
          rename_i c
          have hcn : sizeOf c ≤ n := by
            have := List.sizeOf_lt_of_mem hc
            omega
          exact ⟨c, hc, (ih c hcn p).2 hd⟩
    | specOption pk opt =>
      simp only [Constraint.extractDependencies]
      constructor
      · intro hmem; simp at hmem
      · intro hd; cases hd
    | value v =>
      simp only [Constraint.extractDependencies]
      constructor
      · intro hmem; simp at hmem
      · intro hd; cases hd

/-- C1 (amended): `extract_dependencies` returns exactly the set of package
names of `Depends` atoms in the subtree, where `IfThen`, `NumOf`, `Maximize`
and `Minimize` recurse, option references and literals contribute nothing,
and `Cmp` also contributes nothing (it does not recurse into its children). -/
theorem extractDependencies_eq_dependsIn (p : String) (c : Constraint) :
    p ∈ c.extractDependencies ↔ DependsIn p c :=
  mem_extractDependencies_aux (sizeOf c) c (Nat.le_refl _) p

/-- C1 (counterexample): on `Cmp(Depends(b), Literal(true), =)` the
implementation returns the empty set, not the union `{b}` of the children's
results that the claim describes. -/
theorem extractDependencies_cmp_counterexample :
    Constraint.extractDependencies
        (.cmp (.depends "b") (.value (.bool true)) .equal) = [] ∧
      claimedExtractDependencies
        (.cmp (.depends "b") (.value (.bool true)) .equal) = ["b"] := by
  exact ⟨rfl, rfl⟩

/-! ## HashMap model and the version registry (`src/package/registry.rs`) -/

/-- `HashMap` lookup: the association list is searched front to back. -/
def assocLookup [DecidableEq α] : List (α × β) → α → Option β
  | [], _ => none
  | (k, v) :: rest, a => if a = k then some v else assocLookup rest a

/-- `HashMap::remove`: delete every binding of the key. -/
def assocErase [DecidableEq α] : List (α × β) → α → List (α × β)
  | [], _ => []
  | (k, v) :: rest, a =>
    if k = a then assocErase rest a else (k, v) :: assocErase rest a

/-- `HashMap::insert`: overwrite any previous binding of the key. -/
def hmInsert [DecidableEq α] (m : List (α × β)) (k : α) (v : β) :
    List (α × β) :=
  (k, v) :: assocErase m k

theorem assocLookup_assocErase [DecidableEq α] (m : List (α × β)) (k a : α) :
    assocLookup (assocErase m k) a =
      if a = k then none else assocLookup m a := by
  induction m with
  | nil => simp [assocErase, assocLookup]
  | cons p rest ih =>
    obtain ⟨k1, v1⟩ := p
    by_cases h1 : k1 = k <;> by_cases h2 : a = k1 <;>
      simp only [assocErase, assocLookup, h1, h2, if_true, if_false, ite_true,
        ite_false, if_pos, if_neg, ih] <;> simp_all

theorem assocLookup_hmInsert [DecidableEq α] (m : List (α × β)) (k a : α)
    (v : β) :
    assocLookup (hmInsert m k v) a =
      if a = k then some v else assocLookup m a := by
  by_cases h : a = k <;>
    simp [hmInsert, assocLookup, assocLookup_assocErase, h]

/-- `WipVersionRegistry` (`src/package/registry.rs:31-34`): the multiset of
versions pushed so far.  The element type is a parameter: the `Ord` instance
that `Vec::sort` uses on `Version` is not present under `src/` (only the
per-variant `PartialOrd` impls are), so the registry is embedded generically
over a comparator and instantiated at `DotSeparated`, whose comparison is
total in the source. -/
structure WipVersionRegistry (α : Type) where
  versions : List α

/-- `BuiltVersionRegistry` (`src/package/registry.rs:36-40`): both `HashMap`s
modelled as association lists. -/
structure BuiltVersionRegistry (α : Type) where
  versions : List (α × Nat)
  ids : List (Nat × α)

/-- `WipVersionRegistry::push` (`src/package/registry.rs:48-51`). -/
def WipVersionRegistry.push (r : WipVersionRegistry α) (v : α) :
    WipVersionRegistry α :=
  { versions := r.versions ++ [v] }

/-- The order a comparator induces; `Vec::sort` places `a` before `b` when
`cmp a b ≠ Greater`. -/
def cmpLe (cmp : α → α → Ordering) (a b : α) : Prop := ¬ cmp a b = .gt

instance (cmp : α → α → Ordering) : DecidableRel (cmpLe cmp) := fun a b => by
  unfold cmpLe
  infer_instance

/-- `WipVersionRegistry::build` (`src/package/registry.rs:53-65`): sort the
pushed versions (the stable `Vec::sort` is modelled by insertion sort),
then for each element of the sorted vector insert `(v, idx)` into
`versions` and `(idx, v)` into `ids`; `HashMap::insert` lets a later
duplicate overwrite an earlier one. -/
def WipVersionRegistry.build [DecidableEq α] (cmp : α → α → Ordering)
    (r : WipVersionRegistry α) : BuiltVersionRegistry α :=
  let sorted := r.versions.insertionSort (cmpLe cmp)
  { versions := sorted.enum.foldl (fun m p => hmInsert m p.2 p.1) []
    ids := sorted.enum.foldl (fun m p => hmInsert m p.1 p.2) [] }

/-- `BuiltVersionRegistry::lookup` (`src/package/registry.rs:69-71`). -/
def BuiltVersionRegistry.lookup [DecidableEq α] (r : BuiltVersionRegistry α)
    (v : α) : Option Nat :=
  assocLookup r.versions v

/-- `BuiltVersionRegistry::lookup_id` (`src/package/registry.rs:73-75`). -/
def BuiltVersionRegistry.lookupId (r : BuiltVersionRegistry α) (i : Nat) :
    Option α :=
  assocLookup r.ids i

/-- The comparator underlying `DotSeparated::partial_cmp`. -/
def DotSeparated.cmp (a b : DotSeparated) : Ordering :=
  listCompareWith strCompare a.parts b.parts

theorem buildFold_lookup_not_mem [DecidableEq α] (l : List α) :
    ∀ (k : Nat) (m0 : List (α × Nat)) (v : α), v ∉ l →
      assocLookup ((l.enumFrom k).foldl (fun m p => hmInsert m p.2 p.1) m0) v
        = assocLookup m0 v := by
  induction l with
  | nil => intro k m0 v _; simp [List.enumFrom]
  | cons a rest ih =>
    intro k m0 v hv
    have hva : ¬ v = a := fun h => hv (h ▸ List.mem_cons_self a rest)
    have hvr : v ∉ rest := fun h => hv (List.mem_cons_of_mem a h)
    simp only [List.enumFrom, List.foldl_cons]
    rw [ih (k + 1) _ v hvr, assocLookup_hmInsert, if_neg hva]

theorem buildFold_lookup_eq [DecidableEq α] (l : List α) :
    ∀ (_hl : l.Nodup) (k : Nat) (m0 : List (α × Nat)) (v : α) (j : Nat),
      (assocLookup ((l.enumFrom k).foldl (fun m p => hmInsert m p.2 p.1) m0) v
          = some j
        ↔ ((∃ i, l[i]? = some v ∧ j = k + i)
            ∨ (v ∉ l ∧ assocLookup m0 v = some j))) := by
  induction l with
  | nil =>
    intro _ k m0 v j
    simp [List.enumFrom]
  | cons a rest ih =>
    intro hl k m0 v j
    have hna : a ∉ rest := (List.nodup_cons.1 hl).1
    have hnd : rest.Nodup := (List.nodup_cons.1 hl).2
    simp only [List.enumFrom, List.foldl_cons]
    rw [ih hnd (k + 1) (hmInsert m0 a k) v j]
    by_cases hva : v = a
    · subst hva
      constructor
      · rintro (⟨i, hi, rfl⟩ | ⟨hnv, hm⟩)
        · exact absurd (List.getElem?_mem hi) hna
        · rw [assocLookup_hmInsert, if_pos rfl] at hm
          obtain rfl : k = j := by simpa using hm
          exact Or.inl ⟨0, by simp, by omega⟩
      · rintro (⟨i, hi, rfl⟩ | ⟨hnv, _⟩)
        · cases i with
          | zero =>
            refine Or.inr ⟨hna, ?_⟩
            rw [assocLookup_hmInsert, if_pos rfl]
            simp
          | succ i =>
            simp only [List.getElem?_cons_succ] at hi
            exact absurd (List.getElem?_mem hi) hna
        · exact absurd (List.mem_cons_self _ rest) hnv
    · constructor
      · rintro (⟨i, hi, rfl⟩ | ⟨hnv, hm⟩)
        · exact Or.inl ⟨i + 1, by simpa using hi, by omega⟩
        · rw [assocLookup_hmInsert, if_neg hva] at hm
          exact Or.inr ⟨fun h => (List.mem_cons.1 h).elim hva hnv, hm⟩
      · rintro (⟨i, hi, rfl⟩ | ⟨hnv, hm⟩)
        · cases i with
          | zero => simp only [List.getElem?_cons_zero, Option.some_inj] at hi
                    exact absurd hi.symm hva
          | succ i =>
            simp only [List.getElem?_cons_succ] at hi
            exact Or.inl ⟨i, hi, by omega⟩
        · have hvr : v ∉ rest := fun h => hnv (List.mem_cons_of_mem _ h)
          refine Or.inr ⟨hvr, ?_⟩
          rw [assocLookup_hmInsert, if_neg hva]
          exact hm

theorem build_versions_def [DecidableEq α] (cmp : α → α → Ordering)
    (r : WipVersionRegistry α) :
    (r.build cmp).versions =
      ((r.versions.insertionSort (cmpLe cmp)).enumFrom 0).foldl
        (fun m p => hmInsert m p.2 p.1) [] := rfl

theorem registry_lookup_char [DecidableEq α] (cmp : α → α → Ordering)
    (r : WipVersionRegistry α) (hnd : r.versions.Nodup) (v : α) (j : Nat) :
    ((r.build cmp).lookup v = some j ↔
      (r.versions.insertionSort (cmpLe cmp))[j]? = some v) := by
  have hperm := List.perm_insertionSort (cmpLe cmp) r.versions
  have hsnd : (r.versions.insertionSort (cmpLe cmp)).Nodup :=
    hperm.nodup_iff.2 hnd
  have hkey := buildFold_lookup_eq (r.versions.insertionSort (cmpLe cmp))
    hsnd 0 [] v j
  show assocLookup _ v = some j ↔ _
  rw [build_versions_def, hkey]
  constructor
  · rintro (⟨i, hi, rfl⟩ | ⟨_, hm⟩)
    · simpa using hi
    · simp [assocLookup] at hm
  · intro h
    exact Or.inl ⟨j, h, by omega⟩

/-- C4 (amended): when the versions pushed during type checking are
pairwise distinct, `build` maps them bijectively onto the dense index range
`0..N-1` (`N` the number of versions) and `lookup` returns an index exactly
for the pushed versions; with duplicates the indices are positions in the
sorted multiset, so they need not start at `0`
(see `registry_build_duplicates_counterexample`). -/
theorem registry_build_bijection [DecidableEq α] (cmp : α → α → Ordering)
    (r : WipVersionRegistry α) (hnd : r.versions.Nodup) :
    (∀ v, v ∈ r.versions ↔ ∃ i, (r.build cmp).lookup v = some i) ∧
      (∀ v i, (r.build cmp).lookup v = some i → i < r.versions.length) ∧
      (∀ i, i < r.versions.length →
        ∃ v, v ∈ r.versions ∧ (r.build cmp).lookup v = some i) ∧
      (∀ v w i, (r.build cmp).lookup v = some i →
        (r.build cmp).lookup w = some i → v = w) ∧
      (∀ v, v ∉ r.versions → (r.build cmp).lookup v = none) := by
  have hperm := List.perm_insertionSort (cmpLe cmp) r.versions
  have hlen : (r.versions.insertionSort (cmpLe cmp)).length
      = r.versions.length := List.length_insertionSort _ _
  refine ⟨?_, ?_, ?_, ?_, ?_⟩
  · intro v
    constructor
    · intro hv
      obtain ⟨i, hi⟩ := List.mem_iff_getElem?.1 (hperm.mem_iff.2 hv)
      exact ⟨i, (registry_lookup_char cmp r hnd v i).2 hi⟩
    · rintro ⟨i, hi⟩
      have := (registry_lookup_char cmp r hnd v i).1 hi
      exact hperm.mem_iff.1 (List.getElem?_mem this)
  · intro v i hi
    have := (registry_lookup_char cmp r hnd v i).1 hi
    have := (List.getElem?_eq_some.1 this).1
    omega
  · intro i hi
    have hi2 : i < (r.versions.insertionSort (cmpLe cmp)).length := by omega
    refine ⟨(r.versions.insertionSort (cmpLe cmp))[i], ?_, ?_⟩
    · exact hperm.mem_iff.1 (List.getElem_mem hi2)
    · exact (registry_lookup_char cmp r hnd _ i).2 (List.getElem?_eq_getElem hi2)
  · intro v w i hv hw
    have h1 := (registry_lookup_char cmp r hnd v i).1 hv
    have h2 := (registry_lookup_char cmp r hnd w i).1 hw
    rw [h1] at h2
    exact Option.some_inj.1 h2
  · intro v hv
    have hvs : v ∉ r.versions.insertionSort (cmpLe cmp) :=
      fun h => hv (hperm.mem_iff.1 h)
    show assocLookup _ v = none
    rw [build_versions_def, buildFold_lookup_not_mem _ 0 [] v hvs]
    rfl

/-- C4 (counterexample): pushing the multiset `{1, 1, 2}` of dot-separated
versions leaves two distinct versions, yet the interned indices are `1` and
`2` — the later duplicate of `1` overwrote index `0`, so the distinct
versions are not mapped onto the dense range `0..1`. -/
theorem registry_build_duplicates_counterexample :
    (WipVersionRegistry.build DotSeparated.cmp
        ⟨[⟨["1"]⟩, ⟨["1"]⟩, ⟨["2"]⟩]⟩).lookup ⟨["1"]⟩ = some 1 ∧
      (WipVersionRegistry.build DotSeparated.cmp
        ⟨[⟨["1"]⟩, ⟨["1"]⟩, ⟨["2"]⟩]⟩).lookup ⟨["2"]⟩ = some 2 ∧
      ([⟨["1"]⟩, ⟨["1"]⟩, ⟨["2"]⟩] : List DotSeparated).dedup.length = 2 := by
  refine ⟨by decide, by decide, by decide⟩

/-- C4 (witness): applying `registry_build_bijection` to the distinct
versions `2` and `1`. -/
theorem registry_build_bijection_witness :
    ∃ i, (WipVersionRegistry.build DotSeparated.cmp
      ⟨[⟨["2"]⟩, ⟨["1"]⟩]⟩).lookup ⟨["1"]⟩ = some i :=
  (registry_build_bijection DotSeparated.cmp ⟨[⟨["2"]⟩, ⟨["1"]⟩]⟩
      (by decide)).1 ⟨["1"]⟩ |>.mp (by decide)

/-! ## Version ordering (`src/package/version.rs`) -/

theorem charCompare_self (c : Char) : charCompare c c = .eq :=
  Nat.compare_eq_eq.2 rfl

theorem listCompareWith_self (cmp : α → α → Ordering)
    (hc : ∀ x, cmp x x = .eq) : ∀ l, listCompareWith cmp l l = .eq
  | [] => rfl
  | a :: as => by
    simp [listCompareWith, hc a, listCompareWith_self cmp hc as]

theorem strCompare_self (s : String) : strCompare s s = .eq :=
  listCompareWith_self charCompare charCompare_self s.data

theorem listCompareWith_append_cons (cmp : α → α → Ordering)
    (hc : ∀ x, cmp x x = .eq) :
    ∀ (l : List α) (x : α) (xs : List α),
      listCompareWith cmp l (l ++ x :: xs) = .lt
  | [], _, _ => rfl
  | a :: as, x, xs => by
    simp [listCompareWith, hc a, listCompareWith_append_cons cmp hc as x xs]

theorem listCompareWith_cons_append (cmp : α → α → Ordering)
    (hc : ∀ x, cmp x x = .eq) :
    ∀ (l : List α) (x : α) (xs : List α),
      listCompareWith cmp (l ++ x :: xs) l = .gt
  | [], _, _ => rfl
  | a :: as, x, xs => by
    simp [listCompareWith, hc a, listCompareWith_cons_append cmp hc as x xs]

/-- C3 (amended): the version comparisons defined in the source order a
`DotSeparated` version below any strict extension of it — a version whose
segment sequence is a proper prefix of another's is the *smaller* one — and
order `SemVer` pre-releases below the corresponding release, so
`1.2.3-alpha < 1.2.3` holds while the registry interns the dot-separated
versions `1.2` and `2.0` with `idx(1.2) < idx(2.0)`. -/
theorem version_order_amended :
    (∀ a b : DotSeparated,
      (∃ x xs, b.parts = a.parts ++ x :: xs) →
        DotSeparated.partialCmp a b = some .lt ∧
          DotSeparated.partialCmp b a = some .gt) ∧
      SemVer.partialCmp ⟨1, 2, 3, some ["alpha"], none⟩ ⟨1, 2, 3, none, none⟩
        = some .lt ∧
      (WipVersionRegistry.build DotSeparated.cmp
        ⟨[⟨["2", "0"]⟩, ⟨["1", "2"]⟩]⟩).lookup ⟨["1", "2"]⟩ = some 0 ∧
      (WipVersionRegistry.build DotSeparated.cmp
        ⟨[⟨["2", "0"]⟩, ⟨["1", "2"]⟩]⟩).lookup ⟨["2", "0"]⟩ = some 1 := by
  refine ⟨?_, by decide, by decide, by decide⟩
  rintro a b ⟨x, xs, hb⟩
  unfold DotSeparated.partialCmp
  rw [hb]
  exact ⟨congrArg some
      (listCompareWith_append_cons strCompare strCompare_self a.parts x xs),
    congrArg some
      (listCompareWith_cons_append strCompare strCompare_self a.parts x xs)⟩

/-- C3 (witness): `1 < 1.2` under the dot-separated comparison, by
`version_order_amended` applied at the proper prefix `["1"]` of
`["1","2"]`. -/
theorem version_order_amended_witness :
    DotSeparated.partialCmp ⟨["1"]⟩ ⟨["1", "2"]⟩ = some .lt :=
  (version_order_amended.1 ⟨["1"]⟩ ⟨["1", "2"]⟩ ⟨"2", [], rfl⟩).1

/-- C3 (counterexample): `DotSeparated::partial_cmp` makes the shorter
version `1.2` *less* than its extension `1.2.3`, not greater, and interning
`{2.0, 1.2}` yields `idx(1.2) = 0 < 1 = idx(2.0)`, the reverse of the
claimed `idx(2.0) < idx(1.2)`. -/
theorem version_order_counterexample :
    DotSeparated.partialCmp ⟨["1", "2"]⟩ ⟨["1", "2", "3"]⟩ = some .lt ∧
      ¬ DotSeparated.partialCmp ⟨["1", "2"]⟩ ⟨["1", "2", "3"]⟩ = some .gt ∧
      (WipVersionRegistry.build DotSeparated.cmp
        ⟨[⟨["2", "0"]⟩, ⟨["1", "2"]⟩]⟩).lookup ⟨["1", "2"]⟩ = some 0 ∧
      (WipVersionRegistry.build DotSeparated.cmp
        ⟨[⟨["2", "0"]⟩, ⟨["1", "2"]⟩]⟩).lookup ⟨["2", "0"]⟩ = some 1 := by
  refine ⟨by decide, by decide, by decide, by decide⟩

/-! ## Package outlines and the outline graph (`src/package/outline.rs`) -/

/-- `ConstraintType` (`src/package/constraint/mod.rs:32-41`). -/
inductive ConstraintType where
  | depends
  | specOption
  | value (t : SpecOptionType)
  | cmp
  | ifThen
  | maximize
  | minimize
deriving DecidableEq

/-- The `z3::SortKind`s the planner distinguishes; every sort other than
the four it produces is collapsed into `other`. -/
inductive Z3SortKind where
  | bool
  | int
  | float
  | seq
  | other
deriving DecidableEq

/-- `SolverError` (`src/package/outline.rs:90-109`). -/
inductive SolverError where
  | duplicateOption (name : String)
  | missingDependency (dep : String)
  | missingVariable (package name : String)
  | incorrectZ3Type (expected received : Z3SortKind)
  | incorrectConstraintType (expected received : ConstraintType)
  | invalidConstraint (reason : String)
deriving DecidableEq

/-- `PackageOutline` (`src/package/outline.rs:31-45`); both maps are
association lists with `HashMap` semantics. -/
structure PackageOutline where
  name : String
  constraints : List Constraint
  set_options : List (String × SpecOptionValue)
  set_defaults : List (String × Option SpecOptionValue)

/-- `PackageOutline::dependencies` (`src/package/outline.rs:54-62`):
concatenate `extract_dependencies` of every constraint. -/
def PackageOutline.dependencies (p : PackageOutline) : List String :=
  (p.constraints.map Constraint.extractDependencies).flatten

/-- `SpecOutline` (`src/package/outline.rs:65-69`): `petgraph` node weights
in insertion order, the edge list in insertion order, the name-lookup map
and the required roots. -/
structure SpecOutline where
  nodes : List PackageOutline
  edges : List (Nat × Nat)
  lookup : List (String × Nat)
  required : List String

/-- The name-lookup map built in `SpecOutline::new`
(`src/package/outline.rs:116-120`): later outlines with the same name
overwrite earlier ones. -/
def buildLookup (nodes : List PackageOutline) : List (String × Nat) :=
  nodes.enum.foldl (fun m p => hmInsert m p.2.name p.1) []

/-- The inner loop of `SpecOutline::new` (`src/package/outline.rs:127-139`):
resolve each dependency name of one source node, failing on the first
unknown name. -/
def edgesForSrc (lk : List (String × Nat)) (src : Nat) :
    List String → Except SolverError (List (Nat × Nat))
  | [] => .ok []
  | d :: rest =>
    match assocLookup lk d with
    | none => .error (.missingDependency d)
    | some t =>
      match edgesForSrc lk src rest with
      | .error e => .error e
      | .ok es => .ok ((src, t) :: es)

/-- The edge-collection loop of `SpecOutline::new` over all nodes. -/
def collectEdges (lk : List (String × Nat)) :
    List (Nat × PackageOutline) → Except SolverError (List (Nat × Nat))
  | [] => .ok []
  | (i, o) :: rest =>
    match edgesForSrc lk i o.dependencies with
    | .error e => .error e
    | .ok es =>
      match collectEdges lk rest with
      | .error e => .error e
      | .ok more => .ok (es ++ more)

/-- `SpecOutline::new` (`src/package/outline.rs:112-147`). -/
def SpecOutline.new (outlines : List PackageOutline) :
    Except SolverError SpecOutline :=
  match collectEdges (buildLookup outlines) outlines.enum with
  | .error e => .error e
  | .ok es =>
    .ok { nodes := outlines, edges := es, lookup := buildLookup outlines,
          required := [] }

theorem buildLookup_isSome_aux (nodes : List PackageOutline) :
    ∀ (k : Nat) (m0 : List (String × Nat)) (nm : String),
      ((assocLookup
          ((nodes.enumFrom k).foldl (fun m p => hmInsert m p.2.name p.1) m0)
          nm).isSome
        ↔ ((∃ o ∈ nodes, o.name = nm) ∨ (assocLookup m0 nm).isSome)) := by
  induction nodes with
  | nil => intro k m0 nm; simp [List.enumFrom]
  | cons o rest ih =>
    intro k m0 nm
    simp only [List.enumFrom, List.foldl_cons]
    rw [ih (k + 1)]
    constructor
    · rintro (⟨q, hq, rfl⟩ | hs)
      · exact Or.inl ⟨q, List.mem_cons_of_mem _ hq, rfl⟩
      · rw [assocLookup_hmInsert] at hs
        by_cases h : nm = o.name
        · exact Or.inl ⟨o, List.mem_cons_self _ _, h.symm⟩
        · rw [if_neg h] at hs
          exact Or.inr hs
    · rintro (⟨q, hq, rfl⟩ | hs)
      · rcases List.mem_cons.1 hq with rfl | hq
        · refine Or.inr ?_
          rw [assocLookup_hmInsert, if_pos rfl]
          simp
        · exact Or.inl ⟨q, hq, rfl⟩
      · refine Or.inr ?_
        rw [assocLookup_hmInsert]
        by_cases h : nm = o.name
        · rw [if_pos h]; simp
        · rw [if_neg h]; exact hs

theorem buildLookup_isSome (outlines : List PackageOutline) (nm : String) :
    (assocLookup (buildLookup outlines) nm).isSome ↔
      ∃ o ∈ outlines, o.name = nm := by
  have h := buildLookup_isSome_aux outlines 0 [] nm
  rw [buildLookup, show outlines.enum = outlines.enumFrom 0 from rfl, h]
  simp [assocLookup]

theorem edgesForSrc_ok_iff (lk : List (String × Nat)) (src : Nat)
    (deps : List String) :
    (∃ es, edgesForSrc lk src deps = .ok es) ↔
      ∀ p ∈ deps, (assocLookup lk p).isSome := by
  induction deps with
  | nil => simp [edgesForSrc]
  | cons d rest ih =>
    simp only [edgesForSrc]
    cases hd : assocLookup lk d with
    | none =>
      simp only [List.mem_cons]
      constructor
      · rintro ⟨es, h⟩; cases h
      · intro h
        have := h d (Or.inl rfl)
        rw [hd] at this
        cases this
    | some t =>
      constructor
      · rintro ⟨es, h⟩ p hp
        rcases List.mem_cons.1 hp with rfl | hp
        · rw [hd]; rfl
        · cases hrest : edgesForSrc lk src rest with
          | error e => rw [hrest] at h; cases h
          | ok es2 => exact ih.1 ⟨es2, hrest⟩ p hp
      · intro h
        obtain ⟨es, hes⟩ := ih.2 (fun p hp => h p (List.mem_cons_of_mem _ hp))
        exact ⟨(src, t) :: es, by rw [hes]⟩

theorem edgesForSrc_error (lk : List (String × Nat)) (src : Nat)
    (deps : List String) (e : SolverError) :
    edgesForSrc lk src deps = .error e →
      ∃ p ∈ deps, e = .missingDependency p ∧ assocLookup lk p = none := by
  induction deps with
  | nil => intro h; cases h
  | cons d rest ih =>
    intro h
    simp only [edgesForSrc] at h
    cases hd : assocLookup lk d with
    | none =>
      rw [hd] at h
      cases h
      exact ⟨d, List.mem_cons_self _ _, rfl, hd⟩
    | some t =>
      rw [hd] at h
      cases hrest : edgesForSrc lk src rest with
      | error e2 =>
        rw [hrest] at h
        cases h
        obtain ⟨p, hp, he, hn⟩ := ih hrest
        exact ⟨p, List.mem_cons_of_mem _ hp, he, hn⟩
      | ok es => rw [hrest] at h; cases h

theorem collectEdges_ok_iff (lk : List (String × Nat))
    (l : List (Nat × PackageOutline)) :
    (∃ es, collectEdges lk l = .ok es) ↔
      ∀ p ∈ l, ∀ d ∈ p.2.dependencies, (assocLookup lk d).isSome := by
  induction l with
  | nil => simp [collectEdges]
  | cons p rest ih =>
    obtain ⟨i, o⟩ := p
    simp only [collectEdges]
    cases hsrc : edgesForSrc lk i o.dependencies with
    | error e =>
      constructor
      · rintro ⟨es, h⟩; cases h
      · intro h
        obtain ⟨d, hd, _, hn⟩ := edgesForSrc_error lk i o.dependencies e hsrc
        have := h (i, o) (List.mem_cons_self _ _) d hd
        rw [hn] at this
        cases this
    | ok es =>
      constructor
      · rintro ⟨es2, h⟩ q hq d hd
        rcases List.mem_cons.1 hq with rfl | hq
        · exact (edgesForSrc_ok_iff lk i o.dependencies).1 ⟨es, hsrc⟩ d hd
        · cases hrest : collectEdges lk rest with
          | error e => rw [hrest] at h; cases h
          | ok more => exact ih.1 ⟨more, hrest⟩ q hq d hd
      · intro h
        obtain ⟨more, hmore⟩ :=
          ih.2 (fun q hq d hd => h q (List.mem_cons_of_mem _ hq) d hd)
        exact ⟨es ++ more, by rw [hmore]⟩

theorem collectEdges_error (lk : List (String × Nat))
    (l : List (Nat × PackageOutline)) (e : SolverError) :
    collectEdges lk l = .error e →
      ∃ p ∈ l, ∃ d ∈ p.2.dependencies,
        e = .missingDependency d ∧ assocLookup lk d = none := by
  induction l with
  | nil => intro h; cases h
  | cons p rest ih =>
    obtain ⟨i, o⟩ := p
    intro h
    simp only [collectEdges] at h
    cases hsrc : edgesForSrc lk i o.dependencies with
    | error e2 =>
      rw [hsrc] at h
      cases h
      obtain ⟨d, hd, he, hn⟩ := edgesForSrc_error lk i o.dependencies _ hsrc
      exact ⟨(i, o), List.mem_cons_self _ _, d, hd, he, hn⟩
    | ok es =>
      rw [hsrc] at h
      cases hrest : collectEdges lk rest with
      | error e2 =>
        rw [hrest] at h
        cases h
        obtain ⟨q, hq, d, hd, he, hn⟩ := ih hrest
        exact ⟨q, List.mem_cons_of_mem _ hq, d, hd, he, hn⟩
      | ok more => rw [hrest] at h; cases h

/-- C9: outline-graph construction succeeds exactly when every extracted
dependency of every outline names some supplied outline; otherwise it fails
with the missing-package error (`SolverError::MissingDependency` in this
code base) carrying a genuinely missing name. -/
theorem specOutline_new_missing_package (outlines : List PackageOutline) :
    ((∃ g, SpecOutline.new outlines = .ok g) ↔
      ∀ o ∈ outlines, ∀ p ∈ o.dependencies, ∃ q ∈ outlines, q.name = p) ∧
      (∀ e, SpecOutline.new outlines = .error e →
        ∃ p, e = .missingDependency p ∧ (∀ q ∈ outlines, ¬ q.name = p) ∧
          ∃ o ∈ outlines, p ∈ o.dependencies) := by
  constructor
  · rw [show (∀ o ∈ outlines, ∀ p ∈ o.dependencies, ∃ q ∈ outlines, q.name = p)
        ↔ ∀ pr ∈ outlines.enum, ∀ p ∈ pr.2.dependencies,
            (assocLookup (buildLookup outlines) p).isSome from ?_]
    · unfold SpecOutline.new
      cases hc : collectEdges (buildLookup outlines) outlines.enum with
      | error e =>
        constructor
        · rintro ⟨g, h⟩; cases h
        · intro h
          obtain ⟨es, hes⟩ := (collectEdges_ok_iff _ _).2 h
          rw [hes] at hc
          cases hc
      | ok es =>
        exact ⟨fun _ => (collectEdges_ok_iff _ _).1 ⟨_, hc⟩,
          fun _ => ⟨_, rfl⟩⟩
    · constructor
      · intro h pr hpr p hp
        rw [buildLookup_isSome]
        have hmem : pr.2 ∈ outlines := by
          rw [List.mem_enum_iff_getElem?] at hpr
          exact List.getElem?_mem hpr
        exact h pr.2 hmem p hp
      · intro h o ho p hp
        obtain ⟨i, hi⟩ := List.mem_iff_getElem?.1 ho
        have := h (i, o) (List.mk_mem_enum_iff_getElem?.2 hi) p hp
        exact (buildLookup_isSome outlines p).1 this
  · intro e he
    unfold SpecOutline.new at he
    cases hc : collectEdges (buildLookup outlines) outlines.enum with
    | ok es => rw [hc] at he; cases he
    | error e2 =>
      rw [hc] at he
      cases he
      obtain ⟨pr, hpr, d, hd, hde, hn⟩ := collectEdges_error _ _ _ hc
      refine ⟨d, hde, ?_, pr.2, ?_, hd⟩
      · intro q hq hqd
        have : (assocLookup (buildLookup outlines) d).isSome :=
          (buildLookup_isSome outlines d).2 ⟨q, hq, hqd⟩
        rw [hn] at this
        cases this
      · rw [List.mem_enum_iff_getElem?] at hpr
        exact List.getElem?_mem hpr

/-! ## Default propagation (`src/package/outline.rs:162-268`) -/

/-- `PropagateDefaultError` (`src/package/outline.rs:71-82`); the petgraph
node id carried by `Cycle` is not modelled. -/
inductive PropagateDefaultError where
  | cycle
  | conflict (package_name default_name first_setter : String)
      (first_value : SpecOptionValue) (conflict_setter : String)
      (conflict_value : SpecOptionValue)

/-- The `reason_tracker` of `propagate_defaults`, keyed by
`(package name, option name)`. -/
abbrev ReasonTracker := List ((String × String) × String)

/-- The nodes of a graph with `n` nodes whose removal leaves no incoming
edge into them: used by Kahn's algorithm below. -/
def pickSource (edges : List (Nat × Nat)) (remaining : List Nat) :
    Option Nat :=
  remaining.find? (fun x => decide (∀ s ∈ remaining, ¬ (s, x) ∈ edges))

/-- Kahn's algorithm, fuelled by the node count: a deterministic model of
`petgraph::algo::toposort`; returns `none` exactly when a cycle survives. -/
def topoSortAux (edges : List (Nat × Nat)) :
    Nat → List Nat → Option (List Nat)
  | 0, remaining => if remaining.isEmpty then some [] else none
  | fuel + 1, remaining =>
    if remaining.isEmpty then some []
    else
      match pickSource edges remaining with
      | none => none
      | some x =>
        match topoSortAux edges fuel (remaining.erase x) with
        | none => none
        | some rest => some (x :: rest)

/-- Topological order of the node indices `0..n-1`. -/
def topoSort (edges : List (Nat × Nat)) (n : Nat) : Option (List Nat) :=
  topoSortAux edges n (List.range n)

/-- Outgoing successors of node `i`, from the edge list. -/
def successors (edges : List (Nat × Nat)) (i : Nat) : List Nat :=
  (edges.filter (fun e => decide (e.1 = i))).map (fun e => e.2)

/-- One `(opt_name, src_val)` iteration of the innermost loop of
`propagate_defaults` (`src/package/outline.rs:189-263`) against one
successor `dep`: a `None` source value is skipped with a warning; an
existing `Some` default conflicts only when the tracker recorded a first
setter for `(dep, opt)`; an existing `None` default is removed; a missing
default is inserted and its transitive first setter recorded. -/
def propOne (srcName : String) (dep : PackageOutline)
    (tracker : ReasonTracker) (optName : String)
    (srcVal : Option SpecOptionValue) :
    Except PropagateDefaultError (PackageOutline × ReasonTracker) :=
  match srcVal with
  | none => .ok (dep, tracker)
  | some v =>
    match assocLookup dep.set_defaults optName with
    | some (some oldVal) =>
      match assocLookup tracker (dep.name, optName) with
      | some reason =>
        if svEq oldVal v then .ok (dep, tracker)
        else
          .error (.conflict dep.name optName reason oldVal
            ((assocLookup tracker (srcName, optName)).getD srcName) v)
      | none => .ok (dep, tracker)
    | some none =>
      .ok ({ dep with set_defaults := assocErase dep.set_defaults optName },
        tracker)
    | none =>
      .ok ({ dep with
          set_defaults := hmInsert dep.set_defaults optName (some v) },
        hmInsert tracker (dep.name, optName)
          ((assocLookup tracker (srcName, optName)).getD srcName))

/-- The loop over the source's defaults for a single successor; on an error
the state reached so far is returned alongside it, mirroring the in-place
mutation of the Rust code. -/
def propToDep (srcName : String)
    (defaults : List (String × Option SpecOptionValue))
    (dep : PackageOutline) (tracker : ReasonTracker) :
    (PackageOutline × ReasonTracker) × Option PropagateDefaultError :=
  match defaults with
  | [] => ((dep, tracker), none)
  | (opt, v) :: rest =>
    match propOne srcName dep tracker opt v with
    | .ok (dep2, tr2) => propToDep srcName rest dep2 tr2
    | .error e => ((dep, tracker), some e)

/-- The loop over the successors of one source node
(`src/package/outline.rs:186-264`). -/
def processDeps (srcName : String)
    (srcDefaults : List (String × Option SpecOptionValue)) :
    List Nat → List PackageOutline → ReasonTracker →
      (List PackageOutline × ReasonTracker) × Option PropagateDefaultError
  | [], nodes, tracker => ((nodes, tracker), none)
  | d :: rest, nodes, tracker =>
    match nodes[d]? with
    | none => processDeps srcName srcDefaults rest nodes tracker
    | some depPkg =>
      match propToDep srcName srcDefaults depPkg tracker with
      | ((dep2, tr2), none) =>
        processDeps srcName srcDefaults rest (nodes.set d dep2) tr2
      | ((dep2, tr2), some e) => ((nodes.set d dep2, tr2), some e)

/-- Processing of one node of the topological order: snapshot its name and
defaults (`src/package/outline.rs:175-176`), then feed every successor. -/
def processNode (edges : List (Nat × Nat))
    (st : List PackageOutline × ReasonTracker) (idx : Nat) :
    (List PackageOutline × ReasonTracker) × Option PropagateDefaultError :=
  match st.1[idx]? with
  | none => (st, none)
  | some src =>
    processDeps src.name src.set_defaults (successors edges idx) st.1 st.2

/-- The walk over the topological order. -/
def processAll (edges : List (Nat × Nat)) :
    List Nat → (List PackageOutline × ReasonTracker) →
      (List PackageOutline × ReasonTracker) × Option PropagateDefaultError
  | [], st => (st, none)
  | i :: rest, st =>
    match processNode edges st i with
    | (st2, none) => processAll edges rest st2
    | (st2, some e) => (st2, some e)

/-- `SpecOutline::propagate_defaults` (`src/package/outline.rs:162-268`),
returning the final graph state alongside the optional error: the Rust
function mutates the graph in place, so updates made before an error
survive it. -/
def propagateDefaultsFull (g : SpecOutline) :
    SpecOutline × Option PropagateDefaultError :=
  match topoSort g.edges g.nodes.length with
  | none => (g, some .cycle)
  | some order =>
    match processAll g.edges order (g.nodes, []) with
    | ((nodes2, _), err) => ({ g with nodes := nodes2 }, err)

/-- The `Result` view of `propagate_defaults`. -/
def propagateDefaults (g : SpecOutline) :
    Except PropagateDefaultError SpecOutline :=
  match propagateDefaultsFull g with
  | (g2, none) => .ok g2
  | (_, some e) => .error e

/-- Everything of a package except its `set_defaults`. -/
def sameShape (a b : PackageOutline) : Prop :=
  a.name = b.name ∧ a.constraints = b.constraints ∧
    a.set_options = b.set_options

theorem sameShape_rfl (a : PackageOutline) : sameShape a a :=
  ⟨Eq.refl _, Eq.refl _, Eq.refl _⟩

theorem sameShape_trans {a b c : PackageOutline} (h1 : sameShape a b)
    (h2 : sameShape b c) : sameShape a c :=
  ⟨h1.1.trans h2.1, h1.2.1.trans h2.2.1, h1.2.2.trans h2.2.2⟩

/-- Pointwise shape preservation of the node list. -/
def framePreserved (a b : List PackageOutline) : Prop :=
  ∀ t : Nat,
    (a[t]?).map PackageOutline.name = (b[t]?).map PackageOutline.name ∧
      (a[t]?).map PackageOutline.constraints
        = (b[t]?).map PackageOutline.constraints ∧
      (a[t]?).map PackageOutline.set_options
        = (b[t]?).map PackageOutline.set_options

theorem framePreserved_rfl (a : List PackageOutline) : framePreserved a a :=
  fun _ => ⟨Eq.refl _, Eq.refl _, Eq.refl _⟩

theorem framePreserved_trans {a b c : List PackageOutline}
    (h1 : framePreserved a b) (h2 : framePreserved b c) :
    framePreserved a c :=
  fun t => ⟨(h1 t).1.trans (h2 t).1, (h1 t).2.1.trans (h2 t).2.1,
    (h1 t).2.2.trans (h2 t).2.2⟩

theorem propOne_ok_shape {srcName : String} {dep : PackageOutline}
    {tracker : ReasonTracker} {optName : String}
    {srcVal : Option SpecOptionValue} {dep2 : PackageOutline}
    {tr2 : ReasonTracker}
    (h : propOne srcName dep tracker optName srcVal = .ok (dep2, tr2)) :
    sameShape dep2 dep := by
  unfold propOne at h
  repeat' split at h
  all_goals cases h
  all_goals exact ⟨Eq.refl _, Eq.refl _, Eq.refl _⟩

theorem propToDep_shape {srcName : String}
    {defaults : List (String × Option SpecOptionValue)}
    {dep dep2 : PackageOutline} {tracker tr2 : ReasonTracker}
    {err : Option PropagateDefaultError}
    (h : propToDep srcName defaults dep tracker = ((dep2, tr2), err)) :
    sameShape dep2 dep := by
  induction defaults generalizing dep tracker with
  | nil =>
    unfold propToDep at h
    cases h
    exact sameShape_rfl _
  | cons p rest ih =>
    obtain ⟨opt, v⟩ := p
    unfold propToDep at h
    cases hp : propOne srcName dep tracker opt v with
    | ok st =>
      obtain ⟨depMid, trMid⟩ := st
      rw [hp] at h
      exact sameShape_trans (ih h) (propOne_ok_shape hp)
    | error e =>
      rw [hp] at h
      cases h
      exact sameShape_rfl _

theorem set_framePreserved {nodes : List PackageOutline} {d : Nat}
    {depPkg dep2 : PackageOutline} (hd : nodes[d]? = some depPkg)
    (hs : sameShape dep2 depPkg) :
    framePreserved (nodes.set d dep2) nodes := by
  intro t
  by_cases ht : d = t
  · subst ht
    have hlen : d < nodes.length := by
      by_contra hge
      rw [List.getElem?_eq_none (by omega)] at hd
      cases hd
    rw [List.getElem?_set_self hlen, hd]
    exact ⟨congrArg some hs.1, congrArg some hs.2.1, congrArg some hs.2.2⟩
  · rw [List.getElem?_set_ne ht]
    exact ⟨Eq.refl _, Eq.refl _, Eq.refl _⟩

theorem processDeps_shape {srcName : String}
    {srcDefaults : List (String × Option SpecOptionValue)}
    {deps : List Nat} {nodes nodes2 : List PackageOutline}
    {tracker tr2 : ReasonTracker} {err : Option PropagateDefaultError}
    (h : processDeps srcName srcDefaults deps nodes tracker
      = ((nodes2, tr2), err)) :
    framePreserved nodes2 nodes := by
  induction deps generalizing nodes tracker with
  | nil =>
    unfold processDeps at h
    cases h
    exact framePreserved_rfl _
  | cons d rest ih =>
    unfold processDeps at h
    cases hd : nodes[d]? with
    | none =>
      simp only [hd] at h
      exact ih h
    | some depPkg =>
      cases hp : propToDep srcName srcDefaults depPkg tracker with
      | mk st e =>
        obtain ⟨dep2, trMid⟩ := st
        cases e with
        | none =>
          simp only [hd, hp] at h
          exact framePreserved_trans (ih h) (set_framePreserved hd (propToDep_shape hp))
        | some e0 =>
          simp only [hd, hp, Prod.mk.injEq] at h
          obtain ⟨⟨rfl, rfl⟩, rfl⟩ := h
          exact set_framePreserved hd (propToDep_shape hp)

theorem processNode_shape {edges : List (Nat × Nat)}
    {st : List PackageOutline × ReasonTracker} {idx : Nat}
    {st2 : List PackageOutline × ReasonTracker}
    {err : Option PropagateDefaultError}
    (h : processNode edges st idx = (st2, err)) :
    framePreserved st2.1 st.1 := by
  unfold processNode at h
  cases hs : st.1[idx]? with
  | none =>
    simp only [hs] at h
    cases h
    exact framePreserved_rfl _
  | some src =>
    cases hp : processDeps src.name src.set_defaults
        (successors edges idx) st.1 st.2 with
    | mk st3 e =>
      obtain ⟨nodes3, tr3⟩ := st3
      simp only [hs, hp] at h
      cases h
      exact processDeps_shape hp

theorem processAll_shape {edges : List (Nat × Nat)} {order : List Nat}
    {st st2 : List PackageOutline × ReasonTracker}
    {err : Option PropagateDefaultError}
    (h : processAll edges order st = (st2, err)) :
    framePreserved st2.1 st.1 := by
  induction order generalizing st with
  | nil =>
    unfold processAll at h
    cases h
    exact framePreserved_rfl _
  | cons i rest ih =>
    unfold processAll at h
    cases hp : processNode edges st i with
    | mk stMid e =>
      rw [hp] at h
      cases e with
      | none => exact framePreserved_trans (ih h) (processNode_shape hp)
      | some e0 =>
        cases h
        exact processNode_shape hp

theorem framePreserved_length {a b : List PackageOutline}
    (h : framePreserved a b) : a.length = b.length := by
  by_contra hne
  rcases Nat.lt_or_ge a.length b.length with hlt | hge
  · have h1 := (h a.length).1
    rw [List.getElem?_eq_none (Nat.le_refl _)] at h1
    rw [List.getElem?_eq_getElem hlt] at h1
    cases h1
  · have hlt : b.length < a.length := by omega
    have h1 := (h b.length).1
    rw [List.getElem?_eq_none (Nat.le_refl _)] at h1
    rw [List.getElem?_eq_getElem hlt] at h1
    cases h1

theorem propagateDefaultsFull_eq_cycle {g : SpecOutline}
    (h : topoSort g.edges g.nodes.length = none) :
    propagateDefaultsFull g = (g, some .cycle) := by
  unfold propagateDefaultsFull
  simp only [h]

theorem propagateDefaultsFull_eq {g : SpecOutline} {order : List Nat}
    {nodes2 : List PackageOutline} {tr2 : ReasonTracker}
    {err : Option PropagateDefaultError}
    (h : topoSort g.edges g.nodes.length = some order)
    (hp : processAll g.edges order (g.nodes, []) = ((nodes2, tr2), err)) :
    propagateDefaultsFull g = ({ g with nodes := nodes2 }, err) := by
  unfold propagateDefaultsFull
  simp only [h, hp]

/-- C10: `propagate_defaults` mutates only `set_defaults`: the edge list,
the name-lookup map, the required list, the number of packages, and every
package's name, constraints and `set_options` are unchanged, whether the
pass succeeds or fails. -/
theorem propagateDefaults_frame (g : SpecOutline) :
    (propagateDefaultsFull g).1.edges = g.edges ∧
      (propagateDefaultsFull g).1.lookup = g.lookup ∧
      (propagateDefaultsFull g).1.required = g.required ∧
      (propagateDefaultsFull g).1.nodes.length = g.nodes.length ∧
      framePreserved (propagateDefaultsFull g).1.nodes g.nodes := by
  cases ht : topoSort g.edges g.nodes.length with
  | none =>
    rw [propagateDefaultsFull_eq_cycle ht]
    exact ⟨rfl, rfl, rfl, rfl, framePreserved_rfl _⟩
  | some order =>
    cases hp : processAll g.edges order (g.nodes, []) with
    | mk st2 err =>
      obtain ⟨nodes2, tr2⟩ := st2
      rw [propagateDefaultsFull_eq ht hp]
      have hf : framePreserved nodes2 g.nodes := processAll_shape hp
      exact ⟨rfl, rfl, rfl, framePreserved_length hf, hf⟩

/-! ## C6: None defaults after propagation -/

theorem propOne_none_backward {srcName : String} {dep : PackageOutline}
    {tracker : ReasonTracker} {optName : String}
    {srcVal : Option SpecOptionValue} {dep2 : PackageOutline}
    {tr2 : ReasonTracker}
    (h : propOne srcName dep tracker optName srcVal = .ok (dep2, tr2))
    (opt : String)
    (hn : assocLookup dep2.set_defaults opt = some none) :
    assocLookup dep.set_defaults opt = some none := by
  cases srcVal with
  | none =>
    cases h
    exact hn
  | some v =>
    unfold propOne at h
    cases hl : assocLookup dep.set_defaults optName with
    | none =>
      simp only [hl] at h
      cases h
      simp only [assocLookup_hmInsert] at hn
      by_cases ho : opt = optName
      · rw [if_pos ho] at hn
        cases hn
      · rw [if_neg ho] at hn
        exact hn
    | some o =>
      cases o with
      | none =>
        simp only [hl] at h
        cases h
        simp only [assocLookup_assocErase] at hn
        by_cases ho : opt = optName
        · rw [if_pos ho] at hn
          cases hn
        · rw [if_neg ho] at hn
          exact hn
      | some oldVal =>
        simp only [hl] at h
        cases ht : assocLookup tracker (dep.name, optName) with
        | none =>
          simp only [ht] at h
          cases h
          exact hn
        | some r =>
          simp only [ht] at h
          split at h
          · cases h
            exact hn
          · cases h

theorem propToDep_none_backward {srcName : String}
    {defaults : List (String × Option SpecOptionValue)}
    {dep dep2 : PackageOutline} {tracker tr2 : ReasonTracker}
    {err : Option PropagateDefaultError}
    (h : propToDep srcName defaults dep tracker = ((dep2, tr2), err))
    (opt : String)
    (hn : assocLookup dep2.set_defaults opt = some none) :
    assocLookup dep.set_defaults opt = some none := by
  induction defaults generalizing dep tracker with
  | nil =>
    cases h
    exact hn
  | cons p rest ih =>
    obtain ⟨o, v⟩ := p
    unfold propToDep at h
    cases hp : propOne srcName dep tracker o v with
    | ok st =>
      obtain ⟨depMid, trMid⟩ := st
      simp only [hp] at h
      exact propOne_none_backward hp opt (ih h)
    | error e =>
      simp only [hp] at h
      cases h
      exact hn

/-- Backward preservation of `None`-valued defaults across node lists. -/
def nonePreserved (a b : List PackageOutline) : Prop :=
  ∀ (t : Nat) (pkg2 : PackageOutline) (opt : String), a[t]? = some pkg2 →
    assocLookup pkg2.set_defaults opt = some none →
      ∃ pkg, b[t]? = some pkg ∧ assocLookup pkg.set_defaults opt = some none

theorem nonePreserved_rfl (a : List PackageOutline) : nonePreserved a a :=
  fun _ pkg2 _ h hn => ⟨pkg2, h, hn⟩

theorem nonePreserved_trans {a b c : List PackageOutline}
    (h1 : nonePreserved a b) (h2 : nonePreserved b c) : nonePreserved a c := by
  intro t pkg2 opt hget hn
  obtain ⟨pkg, hget2, hn2⟩ := h1 t pkg2 opt hget hn
  exact h2 t pkg opt hget2 hn2

theorem set_nonePreserved {nodes : List PackageOutline} {d : Nat}
    {depPkg dep2 : PackageOutline} (hd : nodes[d]? = some depPkg)
    (hs : ∀ opt, assocLookup dep2.set_defaults opt = some none →
      assocLookup depPkg.set_defaults opt = some none) :
    nonePreserved (nodes.set d dep2) nodes := by
  intro t pkg2 opt hget hn
  by_cases ht : d = t
  · subst ht
    have hlen : d < nodes.length := by
      by_contra hge
      rw [List.getElem?_eq_none (by omega)] at hd
      cases hd
    rw [List.getElem?_set_self hlen] at hget
    cases hget
    exact ⟨depPkg, hd, hs opt hn⟩
  · rw [List.getElem?_set_ne ht] at hget
    exact ⟨pkg2, hget, hn⟩

theorem processDeps_none_backward {srcName : String}
    {srcDefaults : List (String × Option SpecOptionValue)}
    {deps : List Nat} {nodes nodes2 : List PackageOutline}
    {tracker tr2 : ReasonTracker} {err : Option PropagateDefaultError}
    (h : processDeps srcName srcDefaults deps nodes tracker
      = ((nodes2, tr2), err)) :
    nonePreserved nodes2 nodes := by
  induction deps generalizing nodes tracker with
  | nil =>
    cases h
    exact nonePreserved_rfl _
  | cons d rest ih =>
    unfold processDeps at h
    cases hd : nodes[d]? with
    | none =>
      simp only [hd] at h
      exact ih h
    | some depPkg =>
      cases hp : propToDep srcName srcDefaults depPkg tracker with
      | mk st e =>
        obtain ⟨dep2, trMid⟩ := st
        cases e with
        | none =>
          simp only [hd, hp] at h
          exact nonePreserved_trans (ih h)
            (set_nonePreserved hd (fun opt hn => propToDep_none_backward hp opt hn))
        | some e0 =>
          simp only [hd, hp, Prod.mk.injEq] at h
          obtain ⟨⟨rfl, rfl⟩, rfl⟩ := h
          exact set_nonePreserved hd
            (fun opt hn => propToDep_none_backward hp opt hn)

theorem processNode_none_backward {edges : List (Nat × Nat)}
    {st : List PackageOutline × ReasonTracker} {idx : Nat}
    {st2 : List PackageOutline × ReasonTracker}
    {err : Option PropagateDefaultError}
    (h : processNode edges st idx = (st2, err)) :
    nonePreserved st2.1 st.1 := by
  unfold processNode at h
  cases hs : st.1[idx]? with
  | none =>
    simp only [hs] at h
    cases h
    exact nonePreserved_rfl _
  | some src =>
    cases hp : processDeps src.name src.set_defaults
        (successors edges idx) st.1 st.2 with
    | mk st3 e =>
      obtain ⟨nodes3, tr3⟩ := st3
      simp only [hs, hp] at h
      cases h
      exact processDeps_none_backward hp

theorem processAll_none_backward {edges : List (Nat × Nat)}
    {order : List Nat} {st st2 : List PackageOutline × ReasonTracker}
    {err : Option PropagateDefaultError}
    (h : processAll edges order st = (st2, err)) :
    nonePreserved st2.1 st.1 := by
  induction order generalizing st with
  | nil =>
    cases h
    exact nonePreserved_rfl _
  | cons i rest ih =>
    unfold processAll at h
    cases hp : processNode edges st i with
    | mk stMid e =>
      rw [hp] at h
      cases e with
      | none => exact nonePreserved_trans (ih h) (processNode_none_backward hp)
      | some e0 =>
        cases h
        exact processNode_none_backward hp

/-- C6 (amended): after a successful `propagate_defaults`, every
`None`-valued default entry of any package was already declared `None` by
that same package in the input: propagation never installs a `None`, and it
deletes a successor entry only when overwriting a `None` with an incoming
value — but a declared `None` that no predecessor overrides stays in the
declaring package's map. -/
theorem propagateDefaults_none_hygiene (g g2 : SpecOutline)
    (h : propagateDefaults g = .ok g2) :
    ∀ (t : Nat) (pkg2 : PackageOutline) (opt : String),
      g2.nodes[t]? = some pkg2 →
        assocLookup pkg2.set_defaults opt = some none →
          ∃ pkg, g.nodes[t]? = some pkg ∧
            assocLookup pkg.set_defaults opt = some none := by
  unfold propagateDefaults at h
  cases ht : topoSort g.edges g.nodes.length with
  | none =>
    rw [propagateDefaultsFull_eq_cycle ht] at h
    cases h
  | some order =>
    cases hp : processAll g.edges order (g.nodes, []) with
    | mk st2 err =>
      obtain ⟨nodes2, tr2⟩ := st2
      rw [propagateDefaultsFull_eq ht hp] at h
      cases err with
      | some e => cases h
      | none =>
        cases h
        exact processAll_none_backward hp

/-- C6 (witness): the single-package graph declaring `x ↦ None`
propagates successfully, and `propagateDefaults_none_hygiene` applied to it
traces the surviving `None` back to the input. -/
theorem propagateDefaults_none_hygiene_witness :
    ∃ pkg, ([⟨"a", [], [], [("x", none)]⟩] :
        List PackageOutline)[0]? = some pkg ∧
      assocLookup pkg.set_defaults "x" = some none :=
  propagateDefaults_none_hygiene
    ⟨[⟨"a", [], [], [("x", none)]⟩], [], [("a", 0)], []⟩
    ⟨[⟨"a", [], [], [("x", none)]⟩], [], [("a", 0)], []⟩
    rfl 0 ⟨"a", [], [], [("x", none)]⟩ "x" rfl rfl

/-- C6 (counterexample): a package declaring the default `x ↦ None` with no
successors keeps that `None` entry after a successful propagation, so the
claim that no entry holds `None` after success is false. -/
theorem propagateDefaults_none_counterexample :
    propagateDefaults ⟨[⟨"a", [], [], [("x", none)]⟩], [], [("a", 0)], []⟩
        = .ok ⟨[⟨"a", [], [], [("x", none)]⟩], [], [("a", 0)], []⟩ ∧
      assocLookup (PackageOutline.set_defaults ⟨"a", [], [], [("x", none)]⟩)
        "x" = some none :=
  ⟨rfl, rfl⟩


theorem processDeps_nil (s : String)
    (sd : List (String × Option SpecOptionValue))
    (nodes : List PackageOutline) (tr : ReasonTracker) :
    processDeps s sd [] nodes tr = ((nodes, tr), none) := rfl

theorem processDeps_cons_some_ok {s : String}
    {sd : List (String × Option SpecOptionValue)} {d : Nat}
    {rest : List Nat} {nodes : List PackageOutline} {tr tr2 : ReasonTracker}
    {depPkg dep2 : PackageOutline} (hd : nodes[d]? = some depPkg)
    (hp : propToDep s sd depPkg tr = ((dep2, tr2), none)) :
    processDeps s sd (d :: rest) nodes tr
      = processDeps s sd rest (nodes.set d dep2) tr2 := by
  simp only [processDeps, hd, hp]

theorem processDeps_cons_some_err {s : String}
    {sd : List (String × Option SpecOptionValue)} {d : Nat}
    {rest : List Nat} {nodes : List PackageOutline} {tr tr2 : ReasonTracker}
    {depPkg dep2 : PackageOutline} {e : PropagateDefaultError}
    (hd : nodes[d]? = some depPkg)
    (hp : propToDep s sd depPkg tr = ((dep2, tr2), some e)) :
    processDeps s sd (d :: rest) nodes tr
      = ((nodes.set d dep2, tr2), some e) := by
  simp only [processDeps, hd, hp]

theorem processNode_eq {edges : List (Nat × Nat)}
    {st : List PackageOutline × ReasonTracker} {idx : Nat}
    {src : PackageOutline} (hs : st.1[idx]? = some src) :
    processNode edges st idx
      = processDeps src.name src.set_defaults (successors edges idx)
          st.1 st.2 := by
  simp only [processNode, hs]

theorem processAll_cons_ok {edges : List (Nat × Nat)} {i : Nat}
    {rest : List Nat} {st st2 : List PackageOutline × ReasonTracker}
    (h : processNode edges st i = (st2, none)) :
    processAll edges (i :: rest) st = processAll edges rest st2 := by
  simp only [processAll, h]

theorem processAll_cons_err {edges : List (Nat × Nat)} {i : Nat}
    {rest : List Nat} {st st2 : List PackageOutline × ReasonTracker}
    {e : PropagateDefaultError}
    (h : processNode edges st i = (st2, some e)) :
    processAll edges (i :: rest) st = (st2, some e) := by
  simp only [processAll, h]

/-! ## C5: conflict detection during propagation -/

/-- Two packages where the successor *declares* its own default for `x`:
`p` (with default `x ↦ v`) depends on `d` (declared default `x ↦ vp`). -/
def c5DeclaredGraph (v vp : SpecOptionValue) : SpecOutline :=
  ⟨[⟨"p", [], [], [("x", some v)]⟩, ⟨"d", [], [], [("x", some vp)]⟩],
    [(0, 1)], [("p", 0), ("d", 1)], []⟩

/-- Two setters feeding one successor: `p1` (default `x ↦ vp`) and `p2`
(default `x ↦ v`) both depend on `d`, which declares nothing. -/
def c5TrackedGraph (v vp : SpecOptionValue) : SpecOutline :=
  ⟨[⟨"p1", [], [], [("x", some vp)]⟩, ⟨"p2", [], [], [("x", some v)]⟩,
      ⟨"d", [], [], []⟩],
    [(0, 2), (1, 2)], [("p1", 0), ("p2", 1), ("d", 2)], []⟩

/-- `c5TrackedGraph` after `p1`'s default has been installed into `d`. -/
def c5TrackedAfter (v vp : SpecOptionValue) : SpecOutline :=
  ⟨[⟨"p1", [], [], [("x", some vp)]⟩, ⟨"p2", [], [], [("x", some v)]⟩,
      ⟨"d", [], [], [("x", some vp)]⟩],
    [(0, 2), (1, 2)], [("p1", 0), ("p2", 1), ("d", 2)], []⟩

theorem c5_tracked_run (v vp : SpecOptionValue) :
    propagateDefaultsFull (c5TrackedGraph v vp) =
      (c5TrackedAfter v vp,
        if svEq vp v = true then none
        else some (.conflict "d" "x" "p1" vp "p2" v)) := by
  have htopo :
      topoSort (c5TrackedGraph v vp).edges
        (c5TrackedGraph v vp).nodes.length = some [0, 1, 2] := rfl
  have h0 : processNode (c5TrackedGraph v vp).edges
      ((c5TrackedGraph v vp).nodes, []) 0
      = (((c5TrackedAfter v vp).nodes, [(("d", "x"), "p1")]), none) := rfl
  have h1 : propOne "p2" ⟨"d", [], [], [("x", some vp)]⟩
      [(("d", "x"), "p1")] "x" (some v)
      = if svEq vp v = true then
          .ok (⟨"d", [], [], [("x", some vp)]⟩, [(("d", "x"), "p1")])
        else .error (.conflict "d" "x" "p1" vp "p2" v) := rfl
  have h4 : processNode (c5TrackedGraph v vp).edges
      ((c5TrackedAfter v vp).nodes, [(("d", "x"), "p1")]) 2
      = (((c5TrackedAfter v vp).nodes, [(("d", "x"), "p1")]), none) := rfl
  have hs1 : ((c5TrackedAfter v vp).nodes,
      ([(("d", "x"), "p1")] : ReasonTracker)).1[1]?
      = some ⟨"p2", [], [], [("x", some v)]⟩ := rfl
  have hsucc : successors (c5TrackedGraph v vp).edges 1 = [2] := rfl
  have hd2 : ((c5TrackedAfter v vp).nodes)[2]?
      = some ⟨"d", [], [], [("x", some vp)]⟩ := rfl
  have hset : ((c5TrackedAfter v vp).nodes).set 2
      ⟨"d", [], [], [("x", some vp)]⟩ = (c5TrackedAfter v vp).nodes := rfl
  cases h : svEq vp v with
  | true =>
    rw [h, if_pos rfl] at h1
    have h2 : propToDep "p2" [("x", some v)]
        ⟨"d", [], [], [("x", some vp)]⟩ [(("d", "x"), "p1")]
        = ((⟨"d", [], [], [("x", some vp)]⟩, [(("d", "x"), "p1")]), none) := by
      simp only [propToDep, h1]
    have h3 : processNode (c5TrackedGraph v vp).edges
        ((c5TrackedAfter v vp).nodes, [(("d", "x"), "p1")]) 1
        = (((c5TrackedAfter v vp).nodes, [(("d", "x"), "p1")]), none) := by
      rw [processNode_eq hs1, hsucc, processDeps_cons_some_ok hd2 h2, hset]
      exact processDeps_nil _ _ _ _
    have hall : processAll (c5TrackedGraph v vp).edges [0, 1, 2]
        ((c5TrackedGraph v vp).nodes, [])
        = (((c5TrackedAfter v vp).nodes, [(("d", "x"), "p1")]), none) := by
      rw [processAll_cons_ok h0, processAll_cons_ok h3,
        processAll_cons_ok h4]
      rfl
    rw [propagateDefaultsFull_eq htopo hall, if_pos rfl]
    rfl
  | false =>
    rw [h] at h1
    rw [if_neg (by simp)] at h1
    have h2 : propToDep "p2" [("x", some v)]
        ⟨"d", [], [], [("x", some vp)]⟩ [(("d", "x"), "p1")]
        = ((⟨"d", [], [], [("x", some vp)]⟩, [(("d", "x"), "p1")]),
            some (.conflict "d" "x" "p1" vp "p2" v)) := by
      simp only [propToDep, h1]
    have h3 : processNode (c5TrackedGraph v vp).edges
        ((c5TrackedAfter v vp).nodes, [(("d", "x"), "p1")]) 1
        = (((c5TrackedAfter v vp).nodes, [(("d", "x"), "p1")]),
            some (.conflict "d" "x" "p1" vp "p2" v)) := by
      rw [processNode_eq hs1, hsucc, processDeps_cons_some_err hd2 h2, hset]
    have hall : processAll (c5TrackedGraph v vp).edges [0, 1, 2]
        ((c5TrackedGraph v vp).nodes, [])
        = (((c5TrackedAfter v vp).nodes, [(("d", "x"), "p1")]),
            some (.conflict "d" "x" "p1" vp "p2" v)) := by
      rw [processAll_cons_ok h0, processAll_cons_err h3]
    rw [propagateDefaultsFull_eq htopo hall, if_neg (by simp)]
    rfl

/-- C5 (amended): a propagated default `v` meeting an existing default
`vp` in a successor `d` conflicts only when `d`'s default was itself
installed by this pass (the reason tracker holds a first setter for it):
then `v = vp` leaves everything unchanged and `v ≠ vp` fails with
`DefaultConflict` carrying `d`, the option, the first setter and value, and
the conflicting setter and value.  A default the successor declared itself
is left unchanged with no error even when the values differ. -/
theorem propagateDefaults_conflict_amended :
    (∀ v vp : SpecOptionValue,
      propagateDefaultsFull (c5DeclaredGraph v vp)
        = (c5DeclaredGraph v vp, none)) ∧
      (∀ v vp : SpecOptionValue,
        propagateDefaultsFull (c5TrackedGraph v vp)
          = (c5TrackedAfter v vp,
              if svEq vp v = true then none
              else some (.conflict "d" "x" "p1" vp "p2" v))) :=
  ⟨fun _ _ => rfl, c5_tracked_run⟩

/-- C5 (counterexample): `p` propagates `x ↦ 1` to `d`, which already holds
the declared default `x ↦ 2`; the values differ, yet propagation returns
`Ok` and leaves `d` unchanged instead of failing with `DefaultConflict`. -/
theorem propagateDefaults_conflict_counterexample :
    propagateDefaults (c5DeclaredGraph (.int 1) (.int 2))
        = .ok (c5DeclaredGraph (.int 1) (.int 2)) ∧
      svEq (.int 2) (.int 1) = false :=
  ⟨rfl, rfl⟩

/-! ## C7: idempotence of propagation -/

/-- C7 (counterexample): `a` (default `x ↦ 1`) depends on `b`, which
declares `x ↦ None`.  The first run deletes `b`'s `None` entry and returns
`Ok`; the second run then finds no entry and *installs* `x ↦ 1` into `b`,
so running propagation twice does not leave `set_defaults` as after one
run. -/
theorem propagateDefaults_not_idempotent_counterexample :
    propagateDefaults
        ⟨[⟨"a", [], [], [("x", some (.int 1))]⟩, ⟨"b", [], [], [("x", none)]⟩],
          [(0, 1)], [("a", 0), ("b", 1)], []⟩
      = .ok ⟨[⟨"a", [], [], [("x", some (.int 1))]⟩, ⟨"b", [], [], []⟩],
          [(0, 1)], [("a", 0), ("b", 1)], []⟩ ∧
      propagateDefaults
        ⟨[⟨"a", [], [], [("x", some (.int 1))]⟩, ⟨"b", [], [], []⟩],
          [(0, 1)], [("a", 0), ("b", 1)], []⟩
      = .ok ⟨[⟨"a", [], [], [("x", some (.int 1))]⟩,
            ⟨"b", [], [], [("x", some (.int 1))]⟩],
          [(0, 1)], [("a", 0), ("b", 1)], []⟩ ∧
      ¬ (([⟨"a", [], [], [("x", some (.int 1))]⟩, ⟨"b", [], [], []⟩] :
          List PackageOutline).map PackageOutline.set_defaults
        = ([⟨"a", [], [], [("x", some (.int 1))]⟩,
            ⟨"b", [], [], [("x", some (.int 1))]⟩] :
          List PackageOutline).map PackageOutline.set_defaults) :=
  ⟨rfl, rfl, by decide⟩

theorem pickSource_spec {edges : List (Nat × Nat)} {remaining : List Nat}
    {x : Nat} (h : pickSource edges remaining = some x) :
    x ∈ remaining ∧ ∀ s ∈ remaining, ¬ (s, x) ∈ edges := by
  unfold pickSource at h
  refine ⟨List.mem_of_find?_eq_some h, ?_⟩
  have hp := List.find?_some h
  exact of_decide_eq_true hp

theorem topoSortAux_sound (edges : List (Nat × Nat)) :
    ∀ (fuel : Nat) (remaining order : List Nat),
      topoSortAux edges fuel remaining = some order →
        (order.Perm remaining ∧
          ∀ (j : Nat) (hj : j < order.length) (s : Nat),
            s ∈ order.drop j → ¬ (s, order[j]) ∈ edges) := by
  intro fuel
  induction fuel with
  | zero =>
    intro remaining order h
    unfold topoSortAux at h
    cases hr : remaining.isEmpty with
    | false => rw [hr] at h; cases h
    | true =>
      rw [hr] at h
      cases h
      rw [List.isEmpty_iff] at hr
      subst hr
      refine ⟨List.Perm.refl _, ?_⟩
      intro j hj
      simp at hj
  | succ fuel ih =>
    intro remaining order h
    unfold topoSortAux at h
    cases hr : remaining.isEmpty with
    | true =>
      rw [hr] at h
      cases h
      rw [List.isEmpty_iff] at hr
      subst hr
      refine ⟨List.Perm.refl _, ?_⟩
      intro j hj
      simp at hj
    | false =>
      cases hpick : pickSource edges remaining with
      | none =>
        simp only [hr, hpick] at h
        simp at h
      | some x =>
        cases haux : topoSortAux edges fuel (remaining.erase x) with
        | none =>
          simp only [hr, hpick, haux] at h
          simp at h
        | some rest =>
          simp only [hr, hpick, haux, Bool.false_eq_true, if_false,
            Option.some_inj] at h
          subst h
          obtain ⟨hmem, hnoin⟩ := pickSource_spec hpick
          obtain ⟨hperm, hP⟩ := ih (remaining.erase x) rest haux
          constructor
          · exact ((hperm.cons x).trans
              (List.perm_cons_erase hmem).symm)
          · intro j hj s hs
            cases j with
            | zero =>
              simp only [List.drop_zero] at hs
              have hsr : s ∈ remaining := by
                rcases List.mem_cons.1 hs with rfl | hs2
                · exact hmem
                · exact List.mem_of_mem_erase (hperm.mem_iff.1 hs2)
              simpa using hnoin s hsr
            | succ j =>
              simp only [List.drop_succ_cons] at hs
              have hj2 : j < rest.length := by
                simp at hj
                omega
              have := hP j hj2 s hs
              simpa using this

theorem topoSort_sound {edges : List (Nat × Nat)} {n : Nat}
    {order : List Nat} (h : topoSort edges n = some order) :
    (order.Perm (List.range n) ∧
      ∀ (j : Nat) (hj : j < order.length) (s : Nat),
        s ∈ order.drop j → ¬ (s, order[j]) ∈ edges) :=
  topoSortAux_sound edges n (List.range n) order h

theorem mem_successors {edges : List (Nat × Nat)} {i t : Nat} :
    t ∈ successors edges i ↔ (i, t) ∈ edges := by
  unfold successors
  simp only [List.mem_map, List.mem_filter]
  constructor
  · rintro ⟨e, ⟨he, hd⟩, rfl⟩
    have : e.1 = i := of_decide_eq_true hd
    rw [← this]
    exact he
  · intro he
    exact ⟨(i, t), ⟨he, by simp⟩, rfl⟩

theorem processAll_append (edges : List (Nat × Nat)) (l1 l2 : List Nat)
    (st : List PackageOutline × ReasonTracker) :
    processAll edges (l1 ++ l2) st =
      match processAll edges l1 st with
      | (st1, none) => processAll edges l2 st1
      | (st1, some e) => (st1, some e) := by
  induction l1 generalizing st with
  | nil => rfl
  | cons i rest ih =>
    show processAll edges (i :: (rest ++ l2)) st = _
    cases hp : processNode edges st i with
    | mk st2 err =>
      cases err with
      | none =>
        rw [processAll_cons_ok hp, ih, processAll_cons_ok hp]
      | some e =>
        rw [processAll_cons_err hp, processAll_cons_err hp]

theorem processDeps_untouched {srcName : String}
    {srcDefaults : List (String × Option SpecOptionValue)}
    {deps : List Nat} {nodes nodes2 : List PackageOutline}
    {tracker tr2 : ReasonTracker} {err : Option PropagateDefaultError}
    (h : processDeps srcName srcDefaults deps nodes tracker
      = ((nodes2, tr2), err))
    (t : Nat) (ht : t ∉ deps) : nodes2[t]? = nodes[t]? := by
  induction deps generalizing nodes tracker with
  | nil =>
    cases h
    rfl
  | cons d rest ih =>
    have htd : ¬ d = t := fun hdt => ht (hdt ▸ List.mem_cons_self _ _)
    have htr : t ∉ rest := fun h2 => ht (List.mem_cons_of_mem _ h2)
    unfold processDeps at h
    cases hd : nodes[d]? with
    | none =>
      simp only [hd] at h
      exact ih h htr
    | some depPkg =>
      cases hp : propToDep srcName srcDefaults depPkg tracker with
      | mk stp e =>
        obtain ⟨dep2, trMid⟩ := stp
        cases e with
        | none =>
          simp only [hd, hp] at h
          rw [ih h htr, List.getElem?_set_ne htd]
        | some e0 =>
          simp only [hd, hp, Prod.mk.injEq] at h
          obtain ⟨⟨rfl, rfl⟩, rfl⟩ := h
          rw [List.getElem?_set_ne htd]

theorem processNode_untouched {edges : List (Nat × Nat)}
    {st st2 : List PackageOutline × ReasonTracker} {idx : Nat}
    {err : Option PropagateDefaultError}
    (h : processNode edges st idx = (st2, err))
    (t : Nat) (ht : ¬ (idx, t) ∈ edges) : st2.1[t]? = st.1[t]? := by
  unfold processNode at h
  cases hs : st.1[idx]? with
  | none =>
    simp only [hs] at h
    cases h
    rfl
  | some src =>
    cases hp : processDeps src.name src.set_defaults
        (successors edges idx) st.1 st.2 with
    | mk st3 e =>
      obtain ⟨nodes3, tr3⟩ := st3
      simp only [hs, hp] at h
      cases h
      exact processDeps_untouched hp t (fun hmem => ht (mem_successors.1 hmem))

theorem processAll_untouched {edges : List (Nat × Nat)}
    {order : List Nat} {st st2 : List PackageOutline × ReasonTracker}
    {err : Option PropagateDefaultError}
    (h : processAll edges order st = (st2, err))
    (t : Nat) (ht : ∀ i ∈ order, ¬ (i, t) ∈ edges) :
    st2.1[t]? = st.1[t]? := by
  induction order generalizing st with
  | nil =>
    cases h
    rfl
  | cons i rest ih =>
    unfold processAll at h
    cases hp : processNode edges st i with
    | mk stMid e =>
      rw [hp] at h
      have h1 : stMid.1[t]? = st.1[t]? :=
        processNode_untouched hp t (ht i (List.mem_cons_self _ _))
      cases e with
      | none =>
        rw [ih h (fun i2 hi2 => ht i2 (List.mem_cons_of_mem _ hi2)), h1]
      | some e0 =>
        cases h
        exact h1

/-! ## Monotonicity invariants of propagation -/

/-- No entry of the package's defaults map holds `None`. -/
def defaultsNoneFree (pkg : PackageOutline) : Prop :=
  ∀ p ∈ pkg.set_defaults, ¬ p.2 = none

/-- Every package of the list is `None`-free. -/
def nodesNoneFree (nodes : List PackageOutline) : Prop :=
  ∀ (i : Nat) (pkg : PackageOutline), nodes[i]? = some pkg →
    defaultsNoneFree pkg

/-- Map extension: every binding of the first map survives in the second. -/
def mapLe (m1 m2 : List (String × Option SpecOptionValue)) : Prop :=
  ∀ k w, assocLookup m1 k = some w → assocLookup m2 k = some w

/-- Pointwise map extension over node lists. -/
def nodesMapLe (a b : List PackageOutline) : Prop :=
  ∀ (i : Nat) (pkg1 : PackageOutline), a[i]? = some pkg1 →
    ∃ pkg2, b[i]? = some pkg2 ∧ mapLe pkg1.set_defaults pkg2.set_defaults

theorem mapLe_rfl (m : List (String × Option SpecOptionValue)) :
    mapLe m m := fun _ _ h => h

theorem mapLe_trans {m1 m2 m3 : List (String × Option SpecOptionValue)}
    (h1 : mapLe m1 m2) (h2 : mapLe m2 m3) : mapLe m1 m3 :=
  fun k w h => h2 k w (h1 k w h)

theorem nodesMapLe_rfl (a : List PackageOutline) : nodesMapLe a a :=
  fun _ pkg h => ⟨pkg, h, mapLe_rfl _⟩

theorem nodesMapLe_trans {a b c : List PackageOutline}
    (h1 : nodesMapLe a b) (h2 : nodesMapLe b c) : nodesMapLe a c := by
  intro i pkg1 h
  obtain ⟨pkg2, hb, hle⟩ := h1 i pkg1 h
  obtain ⟨pkg3, hc, hle2⟩ := h2 i pkg2 hb
  exact ⟨pkg3, hc, mapLe_trans hle hle2⟩

theorem assocLookup_mem {m : List (String × Option SpecOptionValue)}
    {k : String} {v : Option SpecOptionValue}
    (h : assocLookup m k = some v) : (k, v) ∈ m := by
  induction m with
  | nil => cases h
  | cons p rest ih =>
    obtain ⟨k1, v1⟩ := p
    unfold assocLookup at h
    by_cases hk : k = k1
    · rw [if_pos hk] at h
      cases h
      subst hk
      exact List.mem_cons_self _ _
    · rw [if_neg hk] at h
      exact List.mem_cons_of_mem _ (ih h)

theorem mem_of_mem_assocErase {m : List (String × Option SpecOptionValue)}
    {a : String} {p : String × Option SpecOptionValue}
    (h : p ∈ assocErase m a) : p ∈ m := by
  induction m with
  | nil => cases h
  | cons q rest ih =>
    obtain ⟨k1, v1⟩ := q
    unfold assocErase at h
    by_cases hk : k1 = a
    · rw [if_pos hk] at h
      exact List.mem_cons_of_mem _ (ih h)
    · rw [if_neg hk] at h
      rcases List.mem_cons.1 h with rfl | h2
      · exact List.mem_cons_self _ _
      · exact List.mem_cons_of_mem _ (ih h2)

theorem defaultsNoneFree_lookup {dep : PackageOutline} {opt : String}
    (hnf : defaultsNoneFree dep)
    (h : assocLookup dep.set_defaults opt = some none) : False :=
  hnf (opt, none) (assocLookup_mem h) rfl

/-- A successful `propOne` keeps the defaults `None`-free and only extends
the map. -/
theorem propOne_invariant {srcName : String} {dep : PackageOutline}
    {tracker : ReasonTracker} {optName : String}
    {srcVal : Option SpecOptionValue} {dep2 : PackageOutline}
    {tr2 : ReasonTracker} (hnf : defaultsNoneFree dep)
    (h : propOne srcName dep tracker optName srcVal = .ok (dep2, tr2)) :
    defaultsNoneFree dep2 ∧ mapLe dep.set_defaults dep2.set_defaults := by
  cases srcVal with
  | none =>
    cases h
    exact ⟨hnf, mapLe_rfl _⟩
  | some v =>
    unfold propOne at h
    cases hl : assocLookup dep.set_defaults optName with
    | none =>
      simp only [hl] at h
      cases h
      constructor
      · intro p hp
        rcases List.mem_cons.1 hp with rfl | hp2
        · simp
        · exact hnf p (mem_of_mem_assocErase hp2)
      · intro k w hw
        show assocLookup (hmInsert dep.set_defaults optName (some v)) k
          = some w
        rw [assocLookup_hmInsert]
        by_cases hk : k = optName
        · subst hk
          rw [hl] at hw
          cases hw
        · rw [if_neg hk]
          exact hw
    | some o =>
      cases o with
      | none => exact absurd hl (fun h2 => defaultsNoneFree_lookup hnf h2)
      | some oldVal =>
        simp only [hl] at h
        cases ht : assocLookup tracker (dep.name, optName) with
        | none =>
          simp only [ht] at h
          cases h
          exact ⟨hnf, mapLe_rfl _⟩
        | some r =>
          simp only [ht] at h
          split at h
          · cases h
            exact ⟨hnf, mapLe_rfl _⟩
          · cases h

theorem propToDep_invariant {srcName : String}
    {defaults : List (String × Option SpecOptionValue)}
    {dep dep2 : PackageOutline} {tracker tr2 : ReasonTracker}
    {err : Option PropagateDefaultError} (hnf : defaultsNoneFree dep)
    (h : propToDep srcName defaults dep tracker = ((dep2, tr2), err)) :
    defaultsNoneFree dep2 ∧ mapLe dep.set_defaults dep2.set_defaults := by
  induction defaults generalizing dep tracker with
  | nil =>
    cases h
    exact ⟨hnf, mapLe_rfl _⟩
  | cons p rest ih =>
    obtain ⟨opt, v⟩ := p
    unfold propToDep at h
    cases hp : propOne srcName dep tracker opt v with
    | ok st =>
      obtain ⟨depMid, trMid⟩ := st
      simp only [hp] at h
      obtain ⟨hnf2, hle⟩ := propOne_invariant hnf hp
      obtain ⟨hnf3, hle2⟩ := ih hnf2 h
      exact ⟨hnf3, mapLe_trans hle hle2⟩
    | error e =>
      simp only [hp] at h
      cases h
      exact ⟨hnf, mapLe_rfl _⟩

theorem set_invariant {nodes : List PackageOutline} {d : Nat}
    {depPkg dep2 : PackageOutline} (hd : nodes[d]? = some depPkg)
    (hnfAll : nodesNoneFree nodes) (hnf2 : defaultsNoneFree dep2)
    (hle : mapLe depPkg.set_defaults dep2.set_defaults) :
    nodesNoneFree (nodes.set d dep2) ∧ nodesMapLe nodes (nodes.set d dep2) := by
  have hlen : d < nodes.length := by
    by_contra hge
    rw [List.getElem?_eq_none (by omega)] at hd
    cases hd
  constructor
  · intro i pkg hi
    by_cases hdi : d = i
    · subst hdi
      rw [List.getElem?_set_self hlen] at hi
      cases hi
      exact hnf2
    · rw [List.getElem?_set_ne hdi] at hi
      exact hnfAll i pkg hi
  · intro i pkg1 hi
    by_cases hdi : d = i
    · subst hdi
      rw [hd] at hi
      cases hi
      exact ⟨dep2, List.getElem?_set_self hlen, hle⟩
    · exact ⟨pkg1, by rw [List.getElem?_set_ne hdi]; exact hi, mapLe_rfl _⟩

theorem processDeps_invariant {srcName : String}
    {srcDefaults : List (String × Option SpecOptionValue)}
    {deps : List Nat} {nodes nodes2 : List PackageOutline}
    {tracker tr2 : ReasonTracker} {err : Option PropagateDefaultError}
    (hnfAll : nodesNoneFree nodes)
    (h : processDeps srcName srcDefaults deps nodes tracker
      = ((nodes2, tr2), err)) :
    nodesNoneFree nodes2 ∧ nodesMapLe nodes nodes2 := by
  induction deps generalizing nodes tracker with
  | nil =>
    cases h
    exact ⟨hnfAll, nodesMapLe_rfl _⟩
  | cons d rest ih =>
    unfold processDeps at h
    cases hd : nodes[d]? with
    | none =>
      simp only [hd] at h
      exact ih hnfAll h
    | some depPkg =>
      cases hp : propToDep srcName srcDefaults depPkg tracker with
      | mk stp e =>
        obtain ⟨dep2, trMid⟩ := stp
        obtain ⟨hnf2, hle⟩ :=
          propToDep_invariant (hnfAll d depPkg hd) hp
        obtain ⟨hnfSet, hleSet⟩ := set_invariant hd hnfAll hnf2 hle
        cases e with
        | none =>
          simp only [hd, hp] at h
          obtain ⟨hnf3, hle3⟩ := ih hnfSet h
          exact ⟨hnf3, nodesMapLe_trans hleSet hle3⟩
        | some e0 =>
          simp only [hd, hp, Prod.mk.injEq] at h
          obtain ⟨⟨rfl, rfl⟩, rfl⟩ := h
          exact ⟨hnfSet, hleSet⟩

theorem processNode_invariant {edges : List (Nat × Nat)}
    {st st2 : List PackageOutline × ReasonTracker} {idx : Nat}
    {err : Option PropagateDefaultError} (hnfAll : nodesNoneFree st.1)
    (h : processNode edges st idx = (st2, err)) :
    nodesNoneFree st2.1 ∧ nodesMapLe st.1 st2.1 := by
  unfold processNode at h
  cases hs : st.1[idx]? with
  | none =>
    simp only [hs] at h
    cases h
    exact ⟨hnfAll, nodesMapLe_rfl _⟩
  | some src =>
    cases hp : processDeps src.name src.set_defaults
        (successors edges idx) st.1 st.2 with
    | mk st3 e =>
      obtain ⟨nodes3, tr3⟩ := st3
      simp only [hs, hp] at h
      cases h
      exact processDeps_invariant hnfAll hp

theorem processAll_invariant {edges : List (Nat × Nat)}
    {order : List Nat} {st st2 : List PackageOutline × ReasonTracker}
    {err : Option PropagateDefaultError} (hnfAll : nodesNoneFree st.1)
    (h : processAll edges order st = (st2, err)) :
    nodesNoneFree st2.1 ∧ nodesMapLe st.1 st2.1 := by
  induction order generalizing st with
  | nil =>
    cases h
    exact ⟨hnfAll, nodesMapLe_rfl _⟩
  | cons i rest ih =>
    unfold processAll at h
    cases hp : processNode edges st i with
    | mk stMid e =>
      rw [hp] at h
      obtain ⟨hnf2, hle⟩ := processNode_invariant hnfAll hp
      cases e with
      | none =>
        obtain ⟨hnf3, hle2⟩ := ih hnf2 h
        exact ⟨hnf3, nodesMapLe_trans hle hle2⟩
      | some e0 =>
        cases h
        exact ⟨hnf2, hle⟩

theorem set_getElem?_self {α : Type} {l : List α} {n : Nat} {a : α}
    (h : l[n]? = some a) : l.set n a = l := by
  induction l generalizing n with
  | nil => cases h
  | cons x rest ih =>
    cases n with
    | zero =>
      simp only [List.getElem?_cons_zero, Option.some_inj] at h
      subst h
      rfl
    | succ n =>
      simp only [List.getElem?_cons_succ] at h
      show x :: rest.set n a = x :: rest
      rw [ih h]

/-! ## Post-conditions of a successful propagation step -/

theorem propOne_post_some {srcName : String} {dep : PackageOutline}
    {tracker : ReasonTracker} {optName : String} {v : SpecOptionValue}
    {dep2 : PackageOutline} {tr2 : ReasonTracker}
    (hnf : defaultsNoneFree dep)
    (h : propOne srcName dep tracker optName (some v) = .ok (dep2, tr2)) :
    ∃ w, assocLookup dep2.set_defaults optName = some (some w) := by
  unfold propOne at h
  cases hl : assocLookup dep.set_defaults optName with
  | none =>
    simp only [hl] at h
    cases h
    refine ⟨v, ?_⟩
    show assocLookup (hmInsert dep.set_defaults optName (some v)) optName
      = some (some v)
    rw [assocLookup_hmInsert, if_pos rfl]
  | some o =>
    cases o with
    | none => exact absurd hl (fun h2 => defaultsNoneFree_lookup hnf h2)
    | some oldVal =>
      simp only [hl] at h
      cases ht : assocLookup tracker (dep.name, optName) with
      | none =>
        simp only [ht] at h
        cases h
        exact ⟨oldVal, hl⟩
      | some r =>
        simp only [ht] at h
        split at h
        · cases h
          exact ⟨oldVal, hl⟩
        · cases h

theorem propToDep_post {srcName : String}
    {defaults : List (String × Option SpecOptionValue)}
    {dep dep2 : PackageOutline} {tracker tr2 : ReasonTracker}
    (hnf : defaultsNoneFree dep)
    (h : propToDep srcName defaults dep tracker = ((dep2, tr2), none)) :
    ∀ p ∈ defaults, ∀ v, p.2 = some v →
      ∃ w, assocLookup dep2.set_defaults p.1 = some (some w) := by
  induction defaults generalizing dep tracker with
  | nil =>
    intro p hp
    cases hp
  | cons q rest ih =>
    obtain ⟨opt, val⟩ := q
    intro p hp v hv
    unfold propToDep at h
    cases hq : propOne srcName dep tracker opt val with
    | error e =>
      simp [hq] at h
    | ok st =>
      obtain ⟨depMid, trMid⟩ := st
      simp only [hq] at h
      obtain ⟨hnfMid, _⟩ := propOne_invariant hnf hq
      rcases List.mem_cons.1 hp with rfl | hp2
      · simp only at hv
        subst hv
        obtain ⟨w, hw⟩ := propOne_post_some hnf hq
        obtain ⟨_, hle⟩ := propToDep_invariant hnfMid h
        exact ⟨w, hle opt (some w) hw⟩
      · exact ih hnfMid h p hp2 v hv

theorem processDeps_post {srcName : String}
    {srcDefaults : List (String × Option SpecOptionValue)}
    {deps : List Nat} {nodes nodes2 : List PackageOutline}
    {tracker tr2 : ReasonTracker} (hnfAll : nodesNoneFree nodes)
    (h : processDeps srcName srcDefaults deps nodes tracker
      = ((nodes2, tr2), none)) :
    ∀ d ∈ deps, (∃ pkg0, nodes[d]? = some pkg0) →
      ∃ pkgd, nodes2[d]? = some pkgd ∧
        ∀ p ∈ srcDefaults, ∀ v, p.2 = some v →
          ∃ w, assocLookup pkgd.set_defaults p.1 = some (some w) := by
  induction deps generalizing nodes tracker with
  | nil =>
    intro d hd
    cases hd
  | cons d0 rest ih =>
    intro d hd hsome
    unfold processDeps at h
    cases hd0 : nodes[d0]? with
    | none =>
      simp only [hd0] at h
      rcases List.mem_cons.1 hd with rfl | hd2
      · obtain ⟨pkg0, hpkg0⟩ := hsome
        rw [hd0] at hpkg0
        cases hpkg0
      · exact ih hnfAll h d hd2 hsome
    | some depPkg =>
      cases hq : propToDep srcName srcDefaults depPkg tracker with
      | mk stp e =>
        obtain ⟨dep2, trMid⟩ := stp
        cases e with
        | some e0 =>
          simp only [hd0, hq, Prod.mk.injEq] at h
          obtain ⟨_, hcontra⟩ := h
          cases hcontra
        | none =>
          simp only [hd0, hq] at h
          obtain ⟨hnf2, hle⟩ :=
            propToDep_invariant (hnfAll d0 depPkg hd0) hq
          obtain ⟨hnfSet, _⟩ :=
            set_invariant hd0 hnfAll hnf2 hle
          have hlen : d0 < nodes.length := by
            by_contra hge
            rw [List.getElem?_eq_none (by omega)] at hd0
            cases hd0
          rcases List.mem_cons.1 hd with rfl | hd2
          · -- the head successor: transported through the rest of the loop
            obtain ⟨_, hleRest⟩ := processDeps_invariant hnfSet h
            obtain ⟨pkgd, hpkgd, hleD⟩ :=
              hleRest d dep2 (List.getElem?_set_self hlen)
            refine ⟨pkgd, hpkgd, ?_⟩
            intro p hp v hv
            obtain ⟨w, hw⟩ := propToDep_post (hnfAll d depPkg hd0) hq p hp v hv
            exact ⟨w, hleD p.1 (some w) hw⟩
          · refine ih hnfSet h d hd2 ?_
            obtain ⟨pkg0, hpkg0⟩ := hsome
            by_cases hdd : d0 = d
            · subst hdd
              exact ⟨dep2, List.getElem?_set_self hlen⟩
            · exact ⟨pkg0, by rw [List.getElem?_set_ne hdd]; exact hpkg0⟩

theorem processNode_post {edges : List (Nat × Nat)}
    {st st2 : List PackageOutline × ReasonTracker} {idx : Nat}
    {src : PackageOutline} (hnfAll : nodesNoneFree st.1)
    (hs : st.1[idx]? = some src)
    (h : processNode edges st idx = (st2, none)) :
    ∀ d, (idx, d) ∈ edges → (∃ pkg0, st.1[d]? = some pkg0) →
      ∃ pkgd, st2.1[d]? = some pkgd ∧
        ∀ p ∈ src.set_defaults, ∀ v, p.2 = some v →
          ∃ w, assocLookup pkgd.set_defaults p.1 = some (some w) := by
  intro d hed hsome
  rw [processNode_eq hs] at h
  cases hq : processDeps src.name src.set_defaults
      (successors edges idx) st.1 st.2 with
  | mk st3 e =>
    obtain ⟨nodes3, tr3⟩ := st3
    rw [hq] at h
    cases h
    exact processDeps_post hnfAll hq d (mem_successors.2 hed) hsome

/-- After a successful pass on a `None`-free graph, every propagated key is
present in every successor: the final graph is a fixpoint of the pass. -/
theorem processAll_fixpoint {edges : List (Nat × Nat)} {n : Nat}
    {order : List Nat} {nodes0 nodesF : List PackageOutline}
    {trF : ReasonTracker}
    (hperm : order.Perm (List.range n))
    (hP : ∀ (j : Nat) (hj : j < order.length) (s : Nat),
      s ∈ order.drop j → ¬ (s, order[j]) ∈ edges)
    (hlen : nodes0.length = n)
    (hnf : nodesNoneFree nodes0)
    (hrun : processAll edges order (nodes0, []) = ((nodesF, trF), none)) :
    ∀ s d, (s, d) ∈ edges → s < n → d < n →
      ∀ pkgs, nodesF[s]? = some pkgs →
        ∀ p ∈ pkgs.set_defaults, ∀ v, p.2 = some v →
          ∃ pkgd w, nodesF[d]? = some pkgd ∧
            assocLookup pkgd.set_defaults p.1 = some (some w) := by
  intro s d hed hs hd pkgs hpkgs p hp v hv
  have hsmem : s ∈ order := hperm.mem_iff.2 (List.mem_range.2 hs)
  obtain ⟨j, hj, hsj⟩ := List.getElem_of_mem hsmem
  have hsplit := List.take_append_drop j order
  rw [← hsplit, processAll_append] at hrun
  cases hpre : processAll edges (order.take j) (nodes0, []) with
  | mk st1 err1 =>
    cases err1 with
    | some e =>
      simp only [hpre] at hrun
      simp at hrun
    | none =>
      simp only [hpre] at hrun
      have hdropj : order.drop j = s :: order.drop (j + 1) := by
        rw [List.drop_eq_getElem_cons hj, hsj]
      have hstay : nodesF[s]? = st1.1[s]? := by
        refine processAll_untouched hrun s ?_
        intro i hi hie
        exact hP j hj i hi (by rw [hsj]; exact hie)
      have hs1 : st1.1[s]? = some pkgs := by rw [← hstay]; exact hpkgs
      have hnf1 : nodesNoneFree st1.1 := (processAll_invariant hnf hpre).1
      have hlen1 : st1.1.length = nodes0.length :=
        framePreserved_length (processAll_shape hpre)
      rw [hdropj] at hrun
      cases hstep : processNode edges st1 s with
      | mk st2 err2 =>
        cases err2 with
        | some e =>
          rw [processAll_cons_err hstep] at hrun
          simp at hrun
        | none =>
          rw [processAll_cons_ok hstep] at hrun
          have hd1 : ∃ pkg0, st1.1[d]? = some pkg0 :=
            ⟨_, List.getElem?_eq_getElem (by omega)⟩
          obtain ⟨pkgd2, hpkgd2, hprop⟩ :=
            processNode_post hnf1 hs1 hstep d hed hd1
          have hnf2 : nodesNoneFree st2.1 :=
            (processNode_invariant hnf1 hstep).1
          obtain ⟨_, hleF⟩ := processAll_invariant hnf2 hrun
          obtain ⟨pkgd, hpkgd, hleD⟩ := hleF d pkgd2 hpkgd2
          obtain ⟨w, hw⟩ := hprop p hp v hv
          exact ⟨pkgd, w, hpkgd, hleD p.1 (some w) hw⟩

/-! ## The pass is a no-op on its own output -/

theorem propOne_lookup_some_noop {srcName : String} {dep : PackageOutline}
    {optName : String} {v w : SpecOptionValue}
    (hw : assocLookup dep.set_defaults optName = some (some w)) :
    propOne srcName dep [] optName (some v) = .ok (dep, []) := by
  unfold propOne
  simp only [hw]
  rfl

theorem propToDep_noop {srcName : String}
    {defaults : List (String × Option SpecOptionValue)}
    {dep : PackageOutline}
    (hall : ∀ p ∈ defaults, ∀ v, p.2 = some v →
      ∃ w, assocLookup dep.set_defaults p.1 = some (some w)) :
    propToDep srcName defaults dep [] = ((dep, []), none) := by
  induction defaults with
  | nil => rfl
  | cons q rest ih =>
    obtain ⟨opt, val⟩ := q
    have hrest : ∀ p ∈ rest, ∀ v, p.2 = some v →
        ∃ w, assocLookup dep.set_defaults p.1 = some (some w) :=
      fun p hp => hall p (List.mem_cons_of_mem _ hp)
    cases val with
    | none =>
      have h1 : propOne srcName dep [] opt none = .ok (dep, []) := rfl
      simp only [propToDep, h1]
      exact ih hrest
    | some v =>
      obtain ⟨w, hw⟩ := hall (opt, some v) (List.mem_cons_self _ _) v rfl
      have h1 : propOne srcName dep [] opt (some v) = .ok (dep, []) :=
        propOne_lookup_some_noop hw
      simp only [propToDep, h1]
      exact ih hrest

theorem processDeps_noop {srcName : String}
    {srcDefaults : List (String × Option SpecOptionValue)}
    {deps : List Nat} {nodes : List PackageOutline}
    (hall : ∀ d ∈ deps, ∃ pkgd, nodes[d]? = some pkgd ∧
      ∀ p ∈ srcDefaults, ∀ v, p.2 = some v →
        ∃ w, assocLookup pkgd.set_defaults p.1 = some (some w)) :
    processDeps srcName srcDefaults deps nodes [] = ((nodes, []), none) := by
  induction deps with
  | nil => rfl
  | cons d rest ih =>
    obtain ⟨pkgd, hd, hprop⟩ := hall d (List.mem_cons_self _ _)
    rw [processDeps_cons_some_ok hd (propToDep_noop hprop),
      set_getElem?_self hd]
    exact ih (fun d2 hd2 => hall d2 (List.mem_cons_of_mem _ hd2))

theorem processNode_noop {edges : List (Nat × Nat)}
    {nodes : List PackageOutline} {idx : Nat} {src : PackageOutline}
    (hs : nodes[idx]? = some src)
    (hall : ∀ d ∈ successors edges idx, ∃ pkgd, nodes[d]? = some pkgd ∧
      ∀ p ∈ src.set_defaults, ∀ v, p.2 = some v →
        ∃ w, assocLookup pkgd.set_defaults p.1 = some (some w)) :
    processNode edges (nodes, []) idx = ((nodes, []), none) := by
  have hs2 : ((nodes, ([] : ReasonTracker))).1[idx]? = some src := hs
  rw [processNode_eq hs2]
  exact processDeps_noop hall

theorem processAll_noop {edges : List (Nat × Nat)} {order : List Nat}
    {nodes : List PackageOutline}
    (hall : ∀ i ∈ order, ∃ src, nodes[i]? = some src ∧
      ∀ d ∈ successors edges i, ∃ pkgd, nodes[d]? = some pkgd ∧
        ∀ p ∈ src.set_defaults, ∀ v, p.2 = some v →
          ∃ w, assocLookup pkgd.set_defaults p.1 = some (some w)) :
    processAll edges order (nodes, []) = ((nodes, []), none) := by
  induction order with
  | nil => rfl
  | cons i rest ih =>
    obtain ⟨src, hs, hprop⟩ := hall i (List.mem_cons_self _ _)
    rw [processAll_cons_ok (processNode_noop hs hprop)]
    exact ih (fun i2 hi2 => hall i2 (List.mem_cons_of_mem _ hi2))

/-- C7 (amended): on a well-formed outline graph (edge endpoints in range,
`HashMap`-backed defaults) none of whose declared defaults is `None`,
`propagate_defaults` is idempotent: if the first run returns `Ok`, a second
run also returns `Ok` and leaves every `set_defaults` map exactly as the
first run left it.  (With a `None` default the pass is not idempotent; see
`propagateDefaults_not_idempotent_counterexample`.) -/
theorem propagateDefaults_idempotent (g g2 : SpecOutline)
    (hwf : ∀ e ∈ g.edges, e.1 < g.nodes.length ∧ e.2 < g.nodes.length)
    (hnf : nodesNoneFree g.nodes)
    (hok : propagateDefaults g = .ok g2) :
    propagateDefaults g2 = .ok g2 := by
  unfold propagateDefaults at hok
  cases ht : topoSort g.edges g.nodes.length with
  | none =>
    rw [propagateDefaultsFull_eq_cycle ht] at hok
    cases hok
  | some order =>
    cases hrun : processAll g.edges order (g.nodes, []) with
    | mk st2 err =>
      obtain ⟨nodes2, tr2⟩ := st2
      rw [propagateDefaultsFull_eq ht hrun] at hok
      cases err with
      | some e => cases hok
      | none =>
        cases hok
        obtain ⟨hperm, hP⟩ := topoSort_sound ht
        have hlen2 : nodes2.length = g.nodes.length :=
          framePreserved_length (processAll_shape hrun)
        have hnf2 : nodesNoneFree nodes2 := (processAll_invariant hnf hrun).1
        have hFP := processAll_fixpoint hperm hP rfl hnf hrun
        have hnoop : processAll g.edges order (nodes2, []) =
            ((nodes2, []), none) := by
          apply processAll_noop
          intro i hi
          have hin : i < g.nodes.length :=
            List.mem_range.1 (hperm.mem_iff.1 hi)
          have hin2 : i < nodes2.length := by omega
          refine ⟨nodes2[i], List.getElem?_eq_getElem hin2, ?_⟩
          intro d hd
          have hed : (i, d) ∈ g.edges := mem_successors.1 hd
          have hdn : d < g.nodes.length := (hwf _ hed).2
          have hdn2 : d < nodes2.length := by omega
          refine ⟨nodes2[d], List.getElem?_eq_getElem hdn2, ?_⟩
          intro p hp v hv
          obtain ⟨pkgd2, w, hpkgd2, hw⟩ := hFP i d hed hin hdn nodes2[i]
            (List.getElem?_eq_getElem hin2) p hp v hv
          rw [List.getElem?_eq_getElem hdn2] at hpkgd2
          cases hpkgd2
          exact ⟨w, hw⟩
        have ht2 : topoSort ({ g with nodes := nodes2 } : SpecOutline).edges
            ({ g with nodes := nodes2 } : SpecOutline).nodes.length
            = some order := by
          show topoSort g.edges nodes2.length = some order
          rw [hlen2]
          exact ht
        have hfull := propagateDefaultsFull_eq ht2 hnoop
        unfold propagateDefaults
        rw [hfull]

/-- C7 (witness): the graph `a → b` with `a` declaring `x ↦ 1` and `b`
nothing propagates to give `b` the default `x ↦ 1`; running the pass on
that output returns it unchanged, by `propagateDefaults_idempotent`. -/
theorem propagateDefaults_idempotent_witness :
    propagateDefaults
        ⟨[⟨"a", [], [], [("x", some (.int 1))]⟩,
            ⟨"b", [], [], [("x", some (.int 1))]⟩],
          [(0, 1)], [("a", 0), ("b", 1)], []⟩
      = .ok ⟨[⟨"a", [], [], [("x", some (.int 1))]⟩,
            ⟨"b", [], [], [("x", some (.int 1))]⟩],
          [(0, 1)], [("a", 0), ("b", 1)], []⟩ :=
  propagateDefaults_idempotent
    ⟨[⟨"a", [], [], [("x", some (.int 1))]⟩, ⟨"b", [], [], []⟩],
      [(0, 1)], [("a", 0), ("b", 1)], []⟩
    ⟨[⟨"a", [], [], [("x", some (.int 1))]⟩,
        ⟨"b", [], [], [("x", some (.int 1))]⟩],
      [(0, 1)], [("a", 0), ("b", 1)], []⟩
    (by decide)
    (by
      intro i pkg hi
      match i with
      | 0 =>
        simp only [List.getElem?_cons_zero, Option.some_inj] at hi
        subst hi
        unfold defaultsNoneFree
        decide
      | 1 =>
        simp only [List.getElem?_cons_succ, List.getElem?_cons_zero,
          Option.some_inj] at hi
        subst hi
        unfold defaultsNoneFree
        decide
      | n + 2 => simp at hi)
    rfl

/-- C9 (witness): a single outline depending on the absent package `b`
makes construction fail with the missing-package error for `b`, and
`specOutline_new_missing_package` certifies that `b` names no outline. -/
theorem specOutline_new_missing_package_witness :
    ∃ p, SolverError.missingDependency "b" = .missingDependency p ∧
      (∀ q ∈ ([⟨"a", [.depends "b"], [], []⟩] : List PackageOutline),
        ¬ q.name = p) ∧
      ∃ o ∈ ([⟨"a", [.depends "b"], [], []⟩] : List PackageOutline),
        p ∈ o.dependencies :=
  (specOutline_new_missing_package [⟨"a", [.depends "b"], [], []⟩]).2
    (.missingDependency "b") rfl

/-! ## C2: the solver builder (`src/package/outline.rs:391-440`) -/

/-- A model of `z3::ast::Dynamic`: enough structure to carry a sort,
Boolean constants and implications.  `node` stands for any other solver
value of the given sort. -/
inductive Z3Dynamic where
  | boolConst (name : String)
  | implies (lhs rhs : Z3Dynamic)
  | node (sort : Z3SortKind) (id : Nat)
deriving DecidableEq

/-- `Dynamic::sort_kind`. -/
def Z3Dynamic.sortKind : Z3Dynamic → Z3SortKind
  | .boolConst _ => .bool
  | .implies _ _ => .bool
  | .node s _ => s

/-- `Dynamic::as_bool`: succeeds exactly on the Boolean sort. -/
def Z3Dynamic.asBool (d : Z3Dynamic) : Option Z3Dynamic :=
  if d.sortKind = .bool then some d else none

/-- One `assert_and_track` call of `add_constraints`: the asserted
implication and its tracking literal, which the code names
`format!("{constraint:?}")`; the label is modelled by the constraint
itself. -/
structure TrackedAssert where
  assertion : Z3Dynamic
  label : Constraint

/-- Outcome of a builder step: success, a `SolverError`, or a Rust panic
(from `unwrap`/indexing). -/
inductive BuildOut (α : Type) where
  | ok (a : α)
  | err (e : SolverError)
  | panicked

/-- The body of the constraint loop of `SpecOutline::add_constraints`
(`outline.rs:404-435`): index the toggle out of `option_ast_map` and
`as_bool().unwrap()` it (panicking when absent or non-Boolean), translate
the constraint, then either assert the tracked implication when the clause
has Boolean sort or fail with `IncorrectZ3Type`.  The registry's
`option_ast_map` and the clause translation `to_z3_clause` are parameters
of the embedding. -/
def addConstraintAssert
    (optionAstMap : String × Option String → Option Z3Dynamic)
    (toZ3Clause : Constraint → Except SolverError Z3Dynamic)
    (pkgName : String) (c : Constraint) : BuildOut TrackedAssert :=
  match optionAstMap (pkgName, none) with
  | none => .panicked
  | some t =>
    match t.asBool with
    | none => .panicked
    | some toggle =>
      match toZ3Clause c with
      | .error e => .err e
      | .ok clause =>
        match clause.sortKind with
        | .bool => .ok ⟨.implies toggle clause, c⟩
        | kind => .err (.incorrectZ3Type .bool kind)

/-- The constraint loop of `add_constraints` for one package. -/
def addConstraintsPkg
    (optionAstMap : String × Option String → Option Z3Dynamic)
    (toZ3Clause : Constraint → Except SolverError Z3Dynamic)
    (pkgName : String) : List Constraint → BuildOut (List TrackedAssert)
  | [] => .ok []
  | c :: rest =>
    match addConstraintAssert optionAstMap toZ3Clause pkgName c with
    | .panicked => .panicked
    | .err e => .err e
    | .ok a =>
      match addConstraintsPkg optionAstMap toZ3Clause pkgName rest with
      | .panicked => .panicked
      | .err e => .err e
      | .ok more => .ok (a :: more)

/-- `SpecOutline::add_constraints` over the nodes in insertion order. -/
def addConstraints
    (optionAstMap : String × Option String → Option Z3Dynamic)
    (toZ3Clause : Constraint → Except SolverError Z3Dynamic) :
    List PackageOutline → BuildOut (List TrackedAssert)
  | [] => .ok []
  | p :: rest =>
    match addConstraintsPkg optionAstMap toZ3Clause p.name p.constraints with
    | .panicked => .panicked
    | .err e => .err e
    | .ok asserts =>
      match addConstraints optionAstMap toZ3Clause rest with
      | .panicked => .panicked
      | .err e => .err e
      | .ok more => .ok (asserts ++ more)

/-- The assertions claim C2 describes: one tracked implication
`toggle(P) ⇒ translate(C)` per constraint `C` of each package `P`. -/
def expectedAsserts
    (optionAstMap : String × Option String → Option Z3Dynamic)
    (toZ3Clause : Constraint → Except SolverError Z3Dynamic)
    (nodes : List PackageOutline) : List TrackedAssert :=
  (nodes.map (fun P => P.constraints.filterMap (fun c =>
    match optionAstMap (P.name, none), toZ3Clause c with
    | some t, .ok d => some ⟨.implies t d, c⟩
    | _, _ => none))).flatten

theorem addConstraintsPkg_ok
    {optionAstMap : String × Option String → Option Z3Dynamic}
    {toZ3Clause : Constraint → Except SolverError Z3Dynamic}
    {pkgName : String} {t : Z3Dynamic}
    (htog : optionAstMap (pkgName, none) = some t)
    (htb : t.sortKind = .bool) (cs : List Constraint)
    (hall : ∀ c ∈ cs, ∃ d, toZ3Clause c = .ok d ∧ d.sortKind = .bool) :
    addConstraintsPkg optionAstMap toZ3Clause pkgName cs
      = .ok (cs.filterMap (fun c =>
          match optionAstMap (pkgName, none), toZ3Clause c with
          | some t, .ok d => some ⟨.implies t d, c⟩
          | _, _ => none)) := by
  induction cs with
  | nil => rfl
  | cons c rest ih =>
    obtain ⟨d, hd, hdb⟩ := hall c (List.mem_cons_self _ _)
    have hassert : addConstraintAssert optionAstMap toZ3Clause pkgName c
        = .ok ⟨.implies t d, c⟩ := by
      unfold addConstraintAssert Z3Dynamic.asBool
      simp only [htog, htb, hd, hdb, if_pos]
    simp only [addConstraintsPkg, hassert,
      ih (fun c2 hc2 => hall c2 (List.mem_cons_of_mem _ hc2)),
      List.filterMap_cons, htog, hd]

theorem addConstraintsPkg_ok_inv
    {optionAstMap : String × Option String → Option Z3Dynamic}
    {toZ3Clause : Constraint → Except SolverError Z3Dynamic}
    {pkgName : String} {cs : List Constraint}
    {asserts : List TrackedAssert}
    (h : addConstraintsPkg optionAstMap toZ3Clause pkgName cs
      = .ok asserts) :
    ∀ c ∈ cs, ∃ d, toZ3Clause c = .ok d ∧ d.sortKind = .bool := by
  induction cs generalizing asserts with
  | nil => intro c hc; cases hc
  | cons c0 rest ih =>
    intro c hc
    unfold addConstraintsPkg at h
    cases ha : addConstraintAssert optionAstMap toZ3Clause pkgName c0 with
    | panicked => rw [ha] at h; cases h
    | err e => rw [ha] at h; cases h
    | ok a =>
      rw [ha] at h
      cases hrest : addConstraintsPkg optionAstMap toZ3Clause pkgName rest with
      | panicked => rw [hrest] at h; cases h
      | err e => rw [hrest] at h; cases h
      | ok more =>
        rcases List.mem_cons.1 hc with rfl | hc2
        · unfold addConstraintAssert at ha
          cases htog : optionAstMap (pkgName, none) with
          | none => simp only [htog] at ha; cases ha
          | some t =>
            simp only [htog] at ha
            cases hb : t.asBool with
            | none => simp only [hb] at ha; cases ha
            | some toggle =>
              simp only [hb] at ha
              cases hz : toZ3Clause c with
              | error e => simp only [hz] at ha; cases ha
              | ok clause =>
                simp only [hz] at ha
                cases hk : clause.sortKind with
                | bool => exact ⟨clause, rfl, hk⟩
                | int => simp only [hk] at ha; cases ha
                | float => simp only [hk] at ha; cases ha
                | seq => simp only [hk] at ha; cases ha
                | other => simp only [hk] at ha; cases ha
        · exact ih hrest c hc2

theorem addConstraintsPkg_nonbool
    {optionAstMap : String × Option String → Option Z3Dynamic}
    {toZ3Clause : Constraint → Except SolverError Z3Dynamic}
    {pkgName : String} {t : Z3Dynamic}
    (htog : optionAstMap (pkgName, none) = some t)
    (htb : t.sortKind = .bool) (cs : List Constraint)
    (hallok : ∀ c ∈ cs, ∃ d, toZ3Clause c = .ok d)
    (hbad : ∃ c ∈ cs, ∃ d, toZ3Clause c = .ok d ∧ ¬ d.sortKind = .bool) :
    ∃ k, ¬ k = Z3SortKind.bool ∧
      addConstraintsPkg optionAstMap toZ3Clause pkgName cs
        = .err (.incorrectZ3Type .bool k) := by
  induction cs with
  | nil =>
    obtain ⟨c, hc, _⟩ := hbad
    cases hc
  | cons c0 rest ih =>
    obtain ⟨d0, hd0⟩ := hallok c0 (List.mem_cons_self _ _)
    by_cases hb0 : d0.sortKind = .bool
    · have hassert : addConstraintAssert optionAstMap toZ3Clause pkgName c0
          = .ok ⟨.implies t d0, c0⟩ := by
        unfold addConstraintAssert Z3Dynamic.asBool
        simp only [htog, htb, hd0, hb0, if_pos]
      have hbad2 : ∃ c ∈ rest, ∃ d, toZ3Clause c = .ok d ∧
          ¬ d.sortKind = .bool := by
        obtain ⟨c, hc, d, hd, hnb⟩ := hbad
        rcases List.mem_cons.1 hc with rfl | hc2
        · rw [hd0] at hd
          cases hd
          exact absurd hb0 hnb
        · exact ⟨c, hc2, d, hd, hnb⟩
      obtain ⟨k, hk, hrest⟩ :=
        ih (fun c hc => hallok c (List.mem_cons_of_mem _ hc)) hbad2
      refine ⟨k, hk, ?_⟩
      simp only [addConstraintsPkg, hassert, hrest]
    · have hassert : addConstraintAssert optionAstMap toZ3Clause pkgName c0
          = .err (.incorrectZ3Type .bool d0.sortKind) := by
        unfold addConstraintAssert Z3Dynamic.asBool
        simp only [htog, htb, hd0, if_pos]
      refine ⟨d0.sortKind, hb0, ?_⟩
      simp only [addConstraintsPkg, hassert]

theorem addConstraints_ok
    {optionAstMap : String × Option String → Option Z3Dynamic}
    {toZ3Clause : Constraint → Except SolverError Z3Dynamic}
    (nodes : List PackageOutline)
    (hall : ∀ P ∈ nodes, ∃ t, optionAstMap (P.name, none) = some t ∧
      t.sortKind = .bool)
    (hok : ∀ P ∈ nodes, ∀ c ∈ P.constraints, ∃ d, toZ3Clause c = .ok d ∧
      d.sortKind = .bool) :
    addConstraints optionAstMap toZ3Clause nodes
      = .ok (expectedAsserts optionAstMap toZ3Clause nodes) := by
  induction nodes with
  | nil => rfl
  | cons P rest ih =>
    obtain ⟨t, htog, htb⟩ := hall P (List.mem_cons_self _ _)
    have hpkg := addConstraintsPkg_ok htog htb P.constraints
      (hok P (List.mem_cons_self _ _))
    simp only [addConstraints, hpkg,
      ih (fun Q hQ => hall Q (List.mem_cons_of_mem _ hQ))
         (fun Q hQ => hok Q (List.mem_cons_of_mem _ hQ)),
      expectedAsserts, List.map_cons, List.flatten_cons]

theorem addConstraints_ok_inv
    {optionAstMap : String × Option String → Option Z3Dynamic}
    {toZ3Clause : Constraint → Except SolverError Z3Dynamic}
    {nodes : List PackageOutline} {asserts : List TrackedAssert}
    (h : addConstraints optionAstMap toZ3Clause nodes = .ok asserts) :
    ∀ P ∈ nodes, ∀ c ∈ P.constraints, ∃ d, toZ3Clause c = .ok d ∧
      d.sortKind = .bool := by
  induction nodes generalizing asserts with
  | nil => intro P hP; cases hP
  | cons P0 rest ih =>
    intro P hP
    unfold addConstraints at h
    cases hpkg : addConstraintsPkg optionAstMap toZ3Clause P0.name
        P0.constraints with
    | panicked => rw [hpkg] at h; cases h
    | err e => rw [hpkg] at h; cases h
    | ok a =>
      rw [hpkg] at h
      cases hrest : addConstraints optionAstMap toZ3Clause rest with
      | panicked => rw [hrest] at h; cases h
      | err e => rw [hrest] at h; cases h
      | ok more =>
        rcases List.mem_cons.1 hP with rfl | hP2
        · exact addConstraintsPkg_ok_inv hpkg
        · exact ih hrest P hP2

theorem addConstraints_nonbool
    {optionAstMap : String × Option String → Option Z3Dynamic}
    {toZ3Clause : Constraint → Except SolverError Z3Dynamic}
    (nodes : List PackageOutline)
    (hall : ∀ P ∈ nodes, ∃ t, optionAstMap (P.name, none) = some t ∧
      t.sortKind = .bool)
    (hok : ∀ P ∈ nodes, ∀ c ∈ P.constraints, ∃ d, toZ3Clause c = .ok d)
    (hbad : ∃ P ∈ nodes, ∃ c ∈ P.constraints, ∃ d, toZ3Clause c = .ok d ∧
      ¬ d.sortKind = .bool) :
    ∃ k, ¬ k = Z3SortKind.bool ∧
      addConstraints optionAstMap toZ3Clause nodes
        = .err (.incorrectZ3Type .bool k) := by
  induction nodes with
  | nil => obtain ⟨P, hP, _⟩ := hbad; cases hP
  | cons P0 rest ih =>
    obtain ⟨t, htog, htb⟩ := hall P0 (List.mem_cons_self _ _)
    obtain ⟨P, hP, c, hc, d, hd, hnb⟩ := hbad
    rcases List.mem_cons.1 hP with rfl | hP2
    · obtain ⟨k, hk, hpkg⟩ := addConstraintsPkg_nonbool htog htb P.constraints
        (hok P (List.mem_cons_self _ _)) ⟨c, hc, d, hd, hnb⟩
      exact ⟨k, hk, by simp only [addConstraints, hpkg]⟩
    · by_cases h0 : ∃ c0 ∈ P0.constraints, ∃ d0, toZ3Clause c0 = .ok d0 ∧
        ¬ d0.sortKind = .bool
      · obtain ⟨k, hk, hpkg⟩ := addConstraintsPkg_nonbool htog htb
          P0.constraints (hok P0 (List.mem_cons_self _ _)) h0
        exact ⟨k, hk, by simp only [addConstraints, hpkg]⟩
      · push_neg at h0
        have h0b : ∀ c0 ∈ P0.constraints, ∃ d0, toZ3Clause c0 = .ok d0 ∧
            d0.sortKind = .bool := by
          intro c0 hc0
          obtain ⟨d0, hd0⟩ := hok P0 (List.mem_cons_self _ _) c0 hc0
          exact ⟨d0, hd0, h0 c0 hc0 d0 hd0⟩
        have hpkg := addConstraintsPkg_ok htog htb P0.constraints h0b
        obtain ⟨k, hk, hrest⟩ :=
          ih (fun Q hQ => hall Q (List.mem_cons_of_mem _ hQ))
             (fun Q hQ => hok Q (List.mem_cons_of_mem _ hQ))
             ⟨P, hP2, c, hc, d, hd, hnb⟩
        exact ⟨k, hk, by simp only [addConstraints, hpkg, hrest]⟩

/-- **C2.** For every package `P` of the outline and every constraint `C`
of `P`, `add_constraints` asserts exactly the tracked implication
`toggle(P) ⇒ translate(C)` labelled by `C` (so a package whose toggle is
false imposes none of its constraints), and when every constraint
translates but some translated clause is not of Boolean sort, the build
returns `IncorrectZ3Type` expecting Bool instead of asserting anything.
The hypothesis states that every package has a Boolean toggle in the
registry's `option_ast_map`, which `add_constraints` fetches by
`option_ast_map[&(name, None)].as_bool().unwrap()`. -/
theorem addConstraints_tracked_implications
    {optionAstMap : String × Option String → Option Z3Dynamic}
    {toZ3Clause : Constraint → Except SolverError Z3Dynamic}
    {nodes : List PackageOutline}
    (hall : ∀ P ∈ nodes, ∃ t, optionAstMap (P.name, none) = some t ∧
      t.sortKind = .bool) :
    ((∀ P ∈ nodes, ∀ c ∈ P.constraints, ∃ d, toZ3Clause c = .ok d ∧
        d.sortKind = .bool) ↔
      addConstraints optionAstMap toZ3Clause nodes
        = .ok (expectedAsserts optionAstMap toZ3Clause nodes))
    ∧ ((∀ P ∈ nodes, ∀ c ∈ P.constraints, ∃ d, toZ3Clause c = .ok d) →
       (∃ P ∈ nodes, ∃ c ∈ P.constraints, ∃ d, toZ3Clause c = .ok d ∧
         ¬ d.sortKind = .bool) →
       ∃ k, ¬ k = Z3SortKind.bool ∧
         addConstraints optionAstMap toZ3Clause nodes
           = .err (.incorrectZ3Type .bool k)) :=
  ⟨⟨fun hok => addConstraints_ok nodes hall hok,
    fun h => addConstraints_ok_inv h⟩,
   fun hok hbad => addConstraints_nonbool nodes hall hok hbad⟩

/-- A concrete builder input for the C2 theorem: one package `a` holding
one constraint, a Boolean toggle for it and a Boolean translation. -/
def c2Oam : String × Option String → Option Z3Dynamic :=
  fun _ => some (.boolConst "t")

def c2Tz : Constraint → Except SolverError Z3Dynamic :=
  fun _ => .ok (.boolConst "x")

def c2Nodes : List PackageOutline :=
  [⟨"a", [.depends "b"], [], []⟩]

theorem addConstraints_tracked_implications_witness :
    (∀ P ∈ c2Nodes, ∃ t, c2Oam (P.name, none) = some t ∧
      t.sortKind = .bool) ∧
    addConstraints c2Oam c2Tz c2Nodes
      = .ok [⟨.implies (.boolConst "t") (.boolConst "x"), .depends "b"⟩] := by
  have hall : ∀ P ∈ c2Nodes, ∃ t, c2Oam (P.name, none) = some t ∧
      t.sortKind = .bool := fun P _ => ⟨.boolConst "t", rfl, rfl⟩
  refine ⟨hall, ?_⟩
  have h := (@addConstraints_tracked_implications c2Oam c2Tz c2Nodes hall).1.1
    (fun P _ c _ => ⟨.boolConst "x", rfl, rfl⟩)
  have he : expectedAsserts c2Oam c2Tz c2Nodes
      = [⟨.implies (.boolConst "t") (.boolConst "x"), .depends "b"⟩] := rfl
  exact he ▸ h

/-! ## C8: type checking (`src/package/constraint/cmp.rs:73-143`,
`src/package/outline.rs:442-461`) -/

/-- The slice of `WipRegistry` (`src/package/registry.rs`) that type
checking reads and writes: `spec_option_map` and the datatype component
of `spec_options`; the z3 value component is never consulted by
`type_check`, and the version registry (touched only by
`Value::type_check` on a `Version` literal) is outside the modelled
state. -/
structure WipReg where
  spec_option_map : List ((String × Option String) × Nat)
  spec_options : List SpecOptionType
deriving DecidableEq

/-- `WipRegistry::lookup_option` (`registry.rs:96-103`). -/
def WipReg.lookupOption (r : WipReg) (pkg : String) (opt : Option String) :
    Option Nat :=
  assocLookup r.spec_option_map (pkg, opt)

/-- `WipRegistry::insert_option` (`registry.rs:145-164`): a conflicting
datatype for an existing option panics (`Conflicting datatypes`), as does
a stored index outside `spec_options`; both are `none`.  Otherwise the
type is pushed and the key remapped to the fresh index, also when the
option already existed with the same type. -/
def WipReg.insertOption (r : WipReg) (pkg : String) (opt : Option String)
    (dtype : SpecOptionType) : Option WipReg :=
  match r.lookupOption pkg opt with
  | some idx =>
    match r.spec_options[idx]? with
    | none => none
    | some d =>
      if d = dtype then
        some ⟨hmInsert r.spec_option_map (pkg, opt) r.spec_options.length,
              r.spec_options ++ [dtype]⟩
      else none
  | none =>
    some ⟨hmInsert r.spec_option_map (pkg, opt) r.spec_options.length,
          r.spec_options ++ [dtype]⟩

/-- `get_type` / `try_get_type` per constraint variant (`cmp.rs:56-61`,
`depends.rs`, `if_then.rs`, `maximize.rs`, `minimize.rs`, `num_of.rs`,
`value.rs`, `constraint/spec_option.rs:36-46`).  The outer `none` is a
Rust panic (a stored index outside `spec_options`); the inner option is
the source's `Option<ConstraintType>`, which is `None` exactly when a
`SpecOption` reference is absent from the registry map. -/
def Constraint.getType : Constraint → WipReg → Option (Option ConstraintType)
  | .cmp _ _ _, _ => some (some .cmp)
  | .depends _, _ => some (some .depends)
  | .ifThen _ _, _ => some (some .ifThen)
  | .maximize _, _ => some (some .maximize)
  | .minimize _, _ => some (some .minimize)
  | .numOf _, _ => some (some (.value .int))
  | .value v, _ => some (some (.value v.toType))
  | .specOption pkg opt, r =>
    match r.lookupOption pkg (some opt) with
    | none => some none
    | some idx =>
      match r.spec_options[idx]? with
      | none => none
      | some t => some (some (.value t))

/-- `set_type` per variant: `SpecOption` inserts the value type into the
registry (`constraint/spec_option.rs:48-68`, panicking when the incoming
type is not `Value(_)` or the insert conflicts), `Cmp` pushes the type
into both sides (`cmp.rs:63-70`), `Maximize`/`Minimize` into their item;
`Depends`, `IfThen`, `NumOf` and `Value` only log and change nothing. -/
def Constraint.setType : Constraint → WipReg → ConstraintType → Option WipReg
  | .cmp lhs rhs _, r, t =>
    match lhs.setType r t with
    | none => none
    | some r2 => rhs.setType r2 t
  | .depends _, r, _ => some r
  | .ifThen _ _, r, _ => some r
  | .maximize item, r, t => item.setType r t
  | .minimize item, r, t => item.setType r t
  | .numOf _, r, _ => some r
  | .specOption pkg opt, r, t =>
    match t with
    | .value ot => r.insertOption pkg (some opt) ot
    | _ => none
  | .value _, r, _ => some r

/-- `can_compare_non_eq` (`cmp.rs:195-214`); the `SpecOption` arm is
`unreachable!()`, modelled as `none`. -/
def canCompareNonEq : ConstraintType → Option Bool
  | .depends => some false
  | .cmp => some false
  | .ifThen => some false
  | .maximize => some false
  | .minimize => some false
  | .specOption => none
  | .value t =>
    match t with
    | .bool => some false
    | _ => some true

/-- `can_compare_eq` (`cmp.rs:216-234`); the `SpecOption` arm is
`unreachable!()`, modelled as `none`. -/
def canCompareEq : ConstraintType → Option Bool
  | .depends => some true
  | .cmp => some true
  | .ifThen => some true
  | .maximize => some false
  | .minimize => some false
  | .specOption => none
  | .value _ => some true

mutual

/-- `type_check` per variant.  `Cmp::type_check` (`cmp.rs:73-143`): read
both side types; `(None, None)` is `Ok`, a single known type is pushed
into the unknown side, two known types must agree or fail with
`IncorrectConstraintType`; then both children are type checked, and if
the left type is now known the operator is checked against
`can_compare_*`, failing with `InvalidConstraint` (the source formats the
type and operator into the message; the embedding keeps a fixed string).
`IfThen::type_check` checks only its condition type; the source's
`ConstraintType::Equal` arm names a variant absent from
`constraint/mod.rs`, and is rendered here as the comparison variant
`.cmp` of the current enum.  `NumOf` checks its children;
`Maximize`/`Minimize` check their item and then require it to be
`SpecOption` or `Value(_)`; `Depends`, `SpecOption` and `Value` contain
nothing to check. -/
def Constraint.typeCheck : Constraint → WipReg → BuildOut WipReg
  | .cmp lhs rhs op, r =>
    match lhs.getType r with
    | none => .panicked
    | some lt =>
      match rhs.getType r with
      | none => .panicked
      | some rt =>
        match
          (match lt, rt with
           | none, none => BuildOut.ok r
           | none, some t =>
             match lhs.setType r t with
             | none => .panicked
             | some r2 => .ok r2
           | some t, none =>
             match rhs.setType r t with
             | none => .panicked
             | some r2 => .ok r2
           | some a, some b =>
             if a = b then .ok r
             else .err (.incorrectConstraintType a b)) with
        | .panicked => .panicked
        | .err e => .err e
        | .ok r1 =>
          match lhs.typeCheck r1 with
          | .panicked => .panicked
          | .err e => .err e
          | .ok r2 =>
            match rhs.typeCheck r2 with
            | .panicked => .panicked
            | .err e => .err e
            | .ok r3 =>
              match lhs.getType r3 with
              | none => .panicked
              | some none => .ok r3
              | some (some lt2) =>
                match
                  (match op with
                   | .less => canCompareNonEq lt2
                   | .lessOrEqual => canCompareNonEq lt2
                   | .greaterOrEqual => canCompareNonEq lt2
                   | .greater => canCompareNonEq lt2
                   | .notEqual => canCompareEq lt2
                   | .equal => canCompareEq lt2) with
                | none => .panicked
                | some true => .ok r3
                | some false =>
                  .err (.invalidConstraint
                    "cannot compare type with operator")
  | .depends _, r => .ok r
  | .ifThen cond _, r =>
    match cond.getType r with
    | none => .panicked
    | some none =>
      match cond.setType r (.value .bool) with
      | none => .panicked
      | some r2 => .ok r2
    | some (some ct) =>
      match ct with
      | .depends => .ok r
      | .cmp => .ok r
      | .ifThen => .err (.invalidConstraint "invalid condition for IfThen")
      | .maximize => .err (.invalidConstraint "invalid condition for IfThen")
      | .minimize => .err (.invalidConstraint "invalid condition for IfThen")
      | .value t =>
        if t = .bool then .ok r
        else .err (.invalidConstraint "non-Boolean condition in IfThen")
      | .specOption => .panicked
  | .maximize item, r =>
    match item.typeCheck r with
    | .panicked => .panicked
    | .err e => .err e
    | .ok r2 =>
      match item.getType r2 with
      | none => .panicked
      | some none => .ok r2
      | some (some known) =>
        match known with
        | .specOption => .ok r2
        | .value _ => .ok r2
        | k => .err (.incorrectConstraintType .specOption k)
  | .minimize item, r =>
    match item.typeCheck r with
    | .panicked => .panicked
    | .err e => .err e
    | .ok r2 =>
      match item.getType r2 with
      | none => .panicked
      | some none => .ok r2
      | some (some known) =>
        match known with
        | .specOption => .ok r2
        | .value _ => .ok r2
        | k => .err (.incorrectConstraintType .specOption k)
  | .numOf of, r => Constraint.typeCheckList of r
  | .specOption _ _, r => .ok r
  | .value _, r => .ok r

/-- `NumOf::type_check`: `try_for_each` over the children. -/
def Constraint.typeCheckList : List Constraint → WipReg → BuildOut WipReg
  | [], r => .ok r
  | c :: rest, r =>
    match c.typeCheck r with
    | .panicked => .panicked
    | .err e => .err e
    | .ok r2 => Constraint.typeCheckList rest r2

end

/-- The node loop of `SpecOutline::type_check` (`outline.rs:442-461`). -/
def typeCheckNodes : List PackageOutline → WipReg → BuildOut WipReg
  | [], r => .ok r
  | p :: rest, r =>
    match Constraint.typeCheckList p.constraints r with
    | .panicked => .panicked
    | .err e => .err e
    | .ok r2 => typeCheckNodes rest r2

/-- `SpecOutline::type_check`. -/
def SpecOutline.typeCheck (s : SpecOutline) (r : WipReg) :
    BuildOut WipReg :=
  typeCheckNodes s.nodes r

/-- The empty work-in-progress registry, `WipRegistry::new`. -/
def c8EmptyReg : WipReg := ⟨[], []⟩

/-- **C8, counterexample.** A comparison whose two sides are spec-option
references that are both still untyped is accepted, not rejected: with
the empty registry, both sides of `Cmp(SpecOption(a,x), SpecOption(a,y),
Equal)` have no inferable type (`get_type` returns `None`), yet
`type_check` succeeds, returning the registry unchanged and no error of
any kind; `SolverError` has no `UnknownType` variant the check could
raise.  This refutes the claim that such a constraint is rejected. -/
theorem cmp_both_untyped_counterexample :
    (Constraint.specOption "a" "x").getType c8EmptyReg = some none
    ∧ (Constraint.specOption "a" "y").getType c8EmptyReg = some none
    ∧ (Constraint.cmp (.specOption "a" "x") (.specOption "a" "y")
        .equal).typeCheck c8EmptyReg = .ok c8EmptyReg
    ∧ ∀ e : SolverError,
        ¬ (Constraint.cmp (.specOption "a" "x") (.specOption "a" "y")
            .equal).typeCheck c8EmptyReg = .err e :=
  ⟨rfl, rfl, rfl, fun _ h => nomatch h⟩

/-- **C8, amended.** `Cmp::type_check` treats two untyped sides as
success: whenever both sides of a comparison are `SpecOption` references
absent from the registry's option map, `type_check` returns `Ok` with the
registry unchanged — for every comparison operator — and the outline-wide
`type_check` loop over a package holding only that constraint likewise
succeeds.  The `(None, None)` arm of `cmp.rs:84` is `Ok(())`,
`SpecOption::type_check` is a no-op, and the final operator check is
skipped when the left type is still unknown; no `UnknownType` error
exists in `SolverError`. -/
theorem cmp_both_untyped_accepted (reg : WipReg)
    (pa oa pb ob pkgName : String) (op : CmpType)
    (h1 : reg.lookupOption pa (some oa) = none)
    (h2 : reg.lookupOption pb (some ob) = none) :
    (Constraint.cmp (.specOption pa oa) (.specOption pb ob)
        op).typeCheck reg = .ok reg
    ∧ typeCheckNodes
        [⟨pkgName,
          [.cmp (.specOption pa oa) (.specOption pb ob) op], [], []⟩]
        reg = .ok reg := by
  have hck : (Constraint.cmp (.specOption pa oa) (.specOption pb ob)
      op).typeCheck reg = .ok reg := by
    simp only [Constraint.typeCheck, Constraint.getType, h1, h2]
  refine ⟨hck, ?_⟩
  simp only [typeCheckNodes, Constraint.typeCheckList, hck]

theorem cmp_both_untyped_accepted_witness :
    c8EmptyReg.lookupOption "b" (some "x") = none
    ∧ c8EmptyReg.lookupOption "b" (some "y") = none
    ∧ (Constraint.cmp (.specOption "b" "x") (.specOption "b" "y")
        .less).typeCheck c8EmptyReg = .ok c8EmptyReg
    ∧ typeCheckNodes
        [⟨"p", [.cmp (.specOption "b" "x") (.specOption "b" "y") .less],
          [], []⟩] c8EmptyReg = .ok c8EmptyReg := by
  obtain ⟨ha, hb⟩ :=
    cmp_both_untyped_accepted c8EmptyReg "b" "x" "b" "y" "p" .less rfl rfl
  exact ⟨rfl, rfl, ha, hb⟩

end Zpack
